import Mathlib

/-!
Verification of the next-controllers routing and dispatch core.

This file gives a shallow embedding, in Lean 4, of the core of the
next-controllers package: path normalization and route compilation
(src/core/matcher.ts), the controller loader and its specificity sort
(src/core/controller-loader.ts), the request dispatch pipeline
(src/core/router.ts, createNextHandler / handleRequest / executeHandler),
the default exception filter (src/core/exception-filter.ts) and the
decorator metadata layer (src/core/registry.ts, src/decorators/*).

Strings are modeled through their character lists; JavaScript numbers used
by the code are small naturals/integers; asynchronous steps are modeled as
pure functions (the pipeline awaits every step in sequence, so the
sequential pure semantics is the faithful one); JavaScript exceptions are
modeled with Except.  External collaborators (the host JSON.parse, Zod
validators, guard and middleware objects, auth providers, controller
handler functions) are modeled as function-typed parameters, exactly at
the interface the code consumes.
-/

/-! ## Characters and path segments

The matcher and the loader work on path strings.  normalizePath (matcher.ts)
joins its arguments with '/', collapses repeated slash runs
(replace(/\/+/g, '/')), trims one trailing slash unless the result is the
bare root, and guarantees a leading slash.  The specificity sort
(controller-loader.ts) splits a path into its non-empty '/'-separated
segments via split('/').filter(Boolean).
-/

def isSlash (c : Char) : Bool := c = '/'

/-- Embedding of the JavaScript idiom path.split('/').filter(Boolean):
the list of maximal non-empty runs of non-slash characters. -/
def segsOf : List Char → List (List Char)
  | [] => []
  | [c] => if isSlash c then [] else [[c]]
  | a :: b :: rest =>
    if isSlash a then segsOf (b :: rest)
    else if isSlash b then [a] :: segsOf (b :: rest)
    else
      match segsOf (b :: rest) with
      | s :: ss => (a :: s) :: ss
      | [] => [[a]]

/-- Embedding of replace(/\/+/g, '/') from normalizePath: every maximal
run of slashes becomes a single slash. -/
def collapseSlashes : List Char → List Char
  | [] => []
  | [c] => [c]
  | a :: b :: rest =>
    if isSlash a && isSlash b then collapseSlashes (b :: rest)
    else a :: collapseSlashes (b :: rest)

/-- Embedding of paths.flatten('/'). -/
def joinSlash (paths : List (List Char)) : List Char :=
  List.intercalate ['/'] paths

/-- Embedding of the trailing-slash trim in normalizePath:
joined.endsWith('/') && joined.length > 1 ? joined.slice(0, -1) : joined. -/
def trimTrail (l : List Char) : List Char :=
  if 1 < l.length ∧ l.getLast? = some '/' then l.dropLast else l

/-- Embedding of the leading-slash guarantee in normalizePath:
normalized.startsWith('/') ? normalized : '/' + normalized. -/
def leadSlash (l : List Char) : List Char :=
  if l.head? = some '/' then l else '/' :: l

/-- Character-level body of normalizePath (src/core/matcher.ts lines
132-138). -/
def normChars (paths : List (List Char)) : List Char :=
  leadSlash (trimTrail (collapseSlashes (joinSlash paths)))

/-- Embedding of normalizePath(...paths) from src/core/matcher.ts: the
variadic argument list becomes an explicit list of strings. -/
def normalizePath (paths : List String) : String :=
  String.mk (normChars (paths.map String.data))

/-- Canonical rendering of a segment list as a normalized path:
a leading slash followed by the '/'-joined segments, and the bare root
for the empty list. -/
def renderSegs (ss : List (List Char)) : List Char :=
  match ss with
  | [] => ['/']
  | _ => '/' :: List.intercalate ['/'] ss

example : normalizePath ["/api/", "/users/"] = "/api/users" := by decide
example : normalizePath ["api", "users"] = "/api/users" := by decide
example : normalizePath ["", "/users"] = "/users" := by decide
example : normalizePath ["/"] = "/" := by decide
example : normalizePath ["/products", "/:id"] = "/products/:id" := by decide
example : segsOf "/products/:id".data = ["products".data, ":id".data] := by decide

/-! ## Substring occurrence

A helper used to state that a given text does not occur anywhere in a
rendered response body. -/

/-- leadsWith needle hay is true when needle is an initial run of hay. -/
def leadsWith : List Char → List Char → Bool
  | [], _ => true
  | _ :: _, [] => false
  | a :: as, b :: bs => a = b && leadsWith as bs

/-- hasChunk hay needle is true when needle occurs contiguously in hay. -/
def hasChunk (hay needle : List Char) : Bool :=
  match hay with
  | [] => leadsWith needle []
  | _ :: rest => leadsWith needle hay || hasChunk rest needle

example : hasChunk "abcd".data "bc".data = true := by decide
example : hasChunk "abcd".data "boom".data = false := by decide

/-! ## JSON values

Model of the JSON values flowing through response bodies, parsed request
bodies, exception details and validator outputs.  NextResponse.json
serializes such a value; renderJson is that serialization (escaping is
not needed for the string literals the core itself produces). -/

mutual
inductive Json where
  | null
  | bool (b : Bool)
  | num (n : Int)
  | str (s : String)
  | arr (elems : JsonList)
  | obj (fields : JsonFields)
  deriving DecidableEq
inductive JsonList where
  | nil
  | cons (head : Json) (tail : JsonList)
  deriving DecidableEq
inductive JsonFields where
  | nil
  | cons (key : String) (value : Json) (tail : JsonFields)
  deriving DecidableEq
end

mutual
def renderJson : Json → String
  | .null => "null"
  | .bool b => if b then "true" else "false"
  | .num n => toString n
  | .str s => "\"" ++ s ++ "\""
  | .arr es => "[" ++ renderList es ++ "]"
  | .obj fs => "\x7b" ++ renderFields fs ++ "\x7d"
def renderList : JsonList → String
  | .nil => ""
  | .cons j .nil => renderJson j
  | .cons j rest => renderJson j ++ "," ++ renderList rest
def renderFields : JsonFields → String
  | .nil => ""
  | .cons k v .nil => "\"" ++ k ++ "\":" ++ renderJson v
  | .cons k v rest => "\"" ++ k ++ "\":" ++ renderJson v ++ "," ++ renderFields rest
end

/-- Singleton object \x7b key: value \x7d. -/
def Json.obj1 (k : String) (v : Json) : Json :=
  .obj (.cons k v .nil)

/-- Two-field object. -/
def Json.obj2 (k1 : String) (v1 : Json) (k2 : String) (v2 : Json) : Json :=
  .obj (.cons k1 v1 (.cons k2 v2 .nil))

/-- Three-field object. -/
def Json.obj3 (k1 : String) (v1 : Json) (k2 : String) (v2 : Json)
    (k3 : String) (v3 : Json) : Json :=
  .obj (.cons k1 v1 (.cons k2 v2 (.cons k3 v3 .nil)))

/-! ## Core data model

Types from src/types/route.ts, src/types/http.ts and src/types/context.ts.
Collaborator objects are modeled at the interface the core consumes:
a guard is its canActivate function, a middleware is its run function,
a Zod validator is its parse function, the host JSON.parse is a
String-to-Json function that may fail. -/

inductive HttpMethod where
  | GET | POST | PUT | DELETE | PATCH
  deriving DecidableEq

def methodString : HttpMethod → String
  | .GET => "GET"
  | .POST => "POST"
  | .PUT => "PUT"
  | .DELETE => "DELETE"
  | .PATCH => "PATCH"

structure AuthContext where
  userId : String
  roles : List String
  permissions : Option (List String)

structure ModelRequest where
  path : String
  method : HttpMethod
  bodyText : String
  query : List (String × String)
  headers : List (String × String)

/-- RequestContext from src/types/http.ts; parsedBody is the private
body cache slot written as context._parsedBody in src/core/router.ts. -/
structure RequestContext where
  request : ModelRequest
  params : List (String × String)
  auth : Option AuthContext
  parsedBody : Option Json

/-- Response as produced by NextResponse.json(body, status); headers are
not modeled. -/
structure ModelResponse where
  status : Nat
  body : Json
  deriving DecidableEq

/-- Data carried by an HttpException instance (src/core/http-exception.ts);
the message lives on the enclosing JsError. -/
structure HttpErrorData where
  statusCode : Nat
  details : Option Json
  deriving DecidableEq

/-- Model of a JavaScript Error as the default exception filter inspects
it: its name, its message, whether it is an instance of HttpException
(and the HttpException payload if so), and whether it has an issues
property (the duck-typed ZodError shape). -/
structure JsError where
  name : String
  message : String
  http : Option HttpErrorData
  issues : Option Json
  deriving DecidableEq

def forbiddenException (msg : String) : JsError :=
  ⟨"ForbiddenException", msg, some ⟨403, none⟩, none⟩

def unauthorizedException (msg : String) : JsError :=
  ⟨"UnauthorizedException", msg, some ⟨401, none⟩, none⟩

/-- Guard collaborator: its canActivate function (async flattened). -/
def GuardF : Type := RequestContext → Bool

/-- Middleware collaborator: its run(context, next) function; next runs
the rest of the chain.  Failures from deeper in the chain surface through
the Except layer, as exceptions do through await next(). -/
def MiddlewareF : Type :=
  RequestContext → (Unit → Except JsError ModelResponse) → Except JsError ModelResponse

inductive ParamKind where
  | body | query | route | request | headers | context
  deriving DecidableEq

/-- ParamDecorator from src/types/route.ts: parameter index, binding kind,
optional key, optional validator (its parse function, which may throw). -/
structure ParamDecorator where
  index : Nat
  type : ParamKind
  key : Option String
  validator : Option (Json → Except JsError Json)

/-- RouteMetadata from src/types/route.ts.  The optional fields are
absent (none) until some decorator sets them. -/
structure RouteMetadataM where
  path : String
  method : HttpMethod
  handler : String
  guards : Option (List GuardF)
  middleware : Option (List MiddlewareF)
  roles : Option (List String)
  paramDecorators : Option (List ParamDecorator)

/-- ControllerMetadata from src/types/route.ts (the routes field of the
interface is never read by the loader or dispatcher and is omitted). -/
structure ControllerMetadataM where
  basePath : String
  guards : Option (List GuardF)
  middleware : Option (List MiddlewareF)

/-- Values a parameter binding can inject into a handler argument slot
(src/core/router.ts executeHandler switch). -/
inductive ArgValue where
  | json (j : Json)
  | str (s : String)
  | nullv
  | undef
  | strMap (m : List (String × String))
  | rawRequest (r : ModelRequest)
  | ctx (c : RequestContext)

/-- Result of a handler invocation before response normalization. -/
inductive HandlerResult where
  | response (r : ModelResponse)
  | value (v : Json)

/-- Bound handler function: receives the positional argument list (sparse
slots are undefined) and returns a Response or a plain JSON value, or
throws. -/
def HandlerFn : Type := List (Option ArgValue) → Except JsError HandlerResult

/-- CompiledRoute from src/types/route.ts: the compiled pattern is kept
as the normalized full path template (matchSegs interprets it the way the
pathToRegexp-produced RegExp does), keys are the ordered parameter names. -/
structure CompiledRoute where
  fullPath : String
  keys : List String
  method : HttpMethod
  handler : HandlerFn
  metadata : RouteMetadataM
  controllerMetadata : ControllerMetadataM

/-! ## Route compilation and the controller loader

compileRoute (src/core/matcher.ts) delegates to pathToRegexp; what the
rest of the system relies on is one capture group per :name segment,
ordered left to right.  The compiled pattern is modeled by the full path
template itself; keys are the colon-stripped dynamic segment names in
order. -/

def isDynSeg (s : List Char) : Bool := s.head? = some ':'

/-- Ordered parameter names of a compiled template (the keys list of
compileRoute). -/
def keysOf (fullPath : String) : List String :=
  ((segsOf fullPath.data).filter isDynSeg).map (fun s => String.mk (s.drop 1))

/-- Input to the loader for one controller class: the registry metadata
for the class (none when the @Controller annotation is missing), the
registry route metadata entries, and the member lookup on the container
instance (none models a member that is not a function). -/
structure ControllerDef where
  controllerMetadata : Option ControllerMetadataM
  routes : List RouteMetadataM
  members : String → Option HandlerFn

/-- Compilation loop body of loadControllers (src/core/controller-loader.ts
lines 32-60) for one controller: full path, compile, handler lookup with
fail-fast on a non-callable member. -/
def compileRoutesFor (pfx : String) (cm : ControllerMetadataM)
    (members : String → Option HandlerFn) :
    List RouteMetadataM → Except String (List CompiledRoute)
  | [] => .ok []
  | rm :: rest =>
    let fullPath := normalizePath [pfx, cm.basePath, rm.path]
    match members rm.handler with
    | none => .error ("Handler " ++ rm.handler ++ " is not a function on controller")
    | some h =>
      match compileRoutesFor pfx cm members rest with
      | .error e => .error e
      | .ok rs => .ok (⟨fullPath, keysOf fullPath, rm.method, h, rm, cm⟩ :: rs)

/-- Controller loop of loadControllers (lines 16-61): controllers without
metadata are skipped with a warning. -/
def buildRoutes (pfx : String) : List ControllerDef → Except String (List CompiledRoute)
  | [] => .ok []
  | c :: cs =>
    match c.controllerMetadata with
    | none => buildRoutes pfx cs
    | some cm =>
      match compileRoutesFor pfx cm c.members c.routes with
      | .error e => .error e
      | .ok rs =>
        match buildRoutes pfx cs with
        | .error e => .error e
        | .ok rest => .ok (rs ++ rest)

/-- Count of static (non-parameter) segments, controller-loader.ts lines
83-84. -/
def staticCount (ss : List (List Char)) : Nat :=
  (ss.filter (fun s => !(isDynSeg s))).length

/-- Segment-by-segment comparison loop of the specificity sort
(controller-loader.ts lines 92-97): at the first position where exactly
one side is dynamic, the static side sorts first. -/
def segLoopCmp : List (List Char) → List (List Char) → Int
  | a :: as, b :: bs =>
    if isDynSeg a && !(isDynSeg b) then 1
    else if !(isDynSeg a) && isDynSeg b then -1
    else segLoopCmp as bs
  | _, _ => 0

/-- Specificity comparator on two segment lists (controller-loader.ts
lines 74-99): more segments first, then more static segments, then the
left-to-right static-before-dynamic loop. -/
def cmpSegs (as bs : List (List Char)) : Int :=
  if as.length ≠ bs.length then (bs.length : Int) - (as.length : Int)
  else if staticCount as ≠ staticCount bs then (staticCount bs : Int) - (staticCount as : Int)
  else segLoopCmp as bs

/-- Sort key computed inside the comparator (controller-loader.ts lines
65-75): the normalized base-path + route-path, split into non-empty
segments.  Note the comparator does not include the global prefix. -/
def sortKeySegs (r : CompiledRoute) : List (List Char) :=
  segsOf (normChars [r.controllerMetadata.basePath.data, r.metadata.path.data])

/-- Comparator passed to compiledRoutes.sort (controller-loader.ts lines
64-100). -/
def routeCompare (a b : CompiledRoute) : Int :=
  cmpSegs (sortKeySegs a) (sortKeySegs b)

/-- Non-positive comparator outcome: a sorts no later than b. -/
def routeLe (a b : CompiledRoute) : Prop := routeCompare a b ≤ 0

instance : DecidableRel routeLe := fun a b => Int.decLe (routeCompare a b) 0

/-- loadControllers (src/core/controller-loader.ts lines 10-103): compile
everything, then sort by specificity.  Array.prototype.sort with a
consistent comparator is modeled by insertion sort (stable, and produces
a list sorted by the comparator, which is all the contract relies on). -/
def loadControllers (ctrls : List ControllerDef) (pfx : String := "") :
    Except String (List CompiledRoute) :=
  match buildRoutes pfx ctrls with
  | .error e => .error e
  | .ok rs => .ok (List.insertionSort routeLe rs)

/-- Segments of the full (prefix-included) path of a compiled route; the
specificity claim is stated with the comparator applied to these. -/
def fullSegments (r : CompiledRoute) : List (List Char) :=
  segsOf r.fullPath.data

/-! ## Route matching

matchRoute (src/core/matcher.ts lines 104-127): linear scan in list
order; first route with matching verb and pattern wins; params collect
the captured segment per key. -/

/-- Interpretation of the compiled pattern: a template segment list
matches a path segment list when they have the same length, static
segments match literally and each :name segment captures the (non-empty)
path segment; returns the params mapping. -/
def matchSegs : List (List Char) → List (List Char) → Option (List (String × String))
  | [], [] => some []
  | t :: ts, p :: ps =>
    if isDynSeg t then
      match matchSegs ts ps with
      | some rest => some ((String.mk (t.drop 1), String.mk p) :: rest)
      | none => none
    else if t = p then matchSegs ts ps else none
  | _, _ => none

def matchRoute (pathname : String) (method : HttpMethod) :
    List CompiledRoute → Option (CompiledRoute × List (String × String))
  | [] => none
  | r :: rest =>
    if r.method = method then
      match matchSegs (segsOf r.fullPath.data) (segsOf pathname.data) with
      | some ps => some (r, ps)
      | none => matchRoute pathname method rest
    else matchRoute pathname method rest

/-! ## Dispatch pipeline

handleRequest (src/core/router.ts lines 20-133) and executeHandler
(lines 148-225). -/

/-- Guard loop (router.ts lines 62-79): evaluate in order, any guard
returning false raises ForbiddenException('Access denied by guard'). -/
def checkGuards (gs : List GuardF) (ctx : RequestContext) : Except JsError Unit :=
  match gs with
  | [] => .ok ()
  | g :: rest =>
    if g ctx then checkGuards rest ctx
    else .error (forbiddenException "Access denied by guard")

/-- Role-authorization step (router.ts lines 81-98).  When roles is
defined (even empty), authentication is required; when non-empty, some
role of the auth context must be included in the route roles. -/
def checkRoles (roles : Option (List String)) (auth : Option AuthContext) :
    Except JsError Unit :=
  match roles with
  | none => .ok ()
  | some rs =>
    match auth with
    | none => .error (unauthorizedException "Authentication required")
    | some a =>
      if rs.length > 0 then
        if rs.any (fun role => a.roles.contains role) then .ok ()
        else .error (forbiddenException "Insufficient permissions")
      else .ok ()

/-- Middleware chain construction (router.ts lines 100-104): controller
middleware then route middleware. -/
def middlewareChain (r : CompiledRoute) : List MiddlewareF :=
  (r.controllerMetadata.middleware.getD []) ++ (r.metadata.middleware.getD [])

/-- Middleware chain execution (router.ts lines 106-118): each middleware
receives the context and a continuation running the rest of the chain;
past the end of the list the handler step runs.  The source advances a
shared index inside the executeMiddleware closure; for middleware that
invoke their continuation at most once this recursion is the same
function. -/
def runChain (mws : List MiddlewareF) (ctx : RequestContext)
    (handlerStep : Unit → Except JsError ModelResponse) : Except JsError ModelResponse :=
  match mws with
  | [] => handlerStep ()
  | mw :: rest => mw ctx (fun _ => runChain rest ctx handlerStep)

/-- First query-string value for a key (URL.searchParams.get). -/
def lookupFirst (m : List (String × String)) (k : String) : Option String :=
  (m.find? (fun e => e.1 = k)).map (fun e => e.2)

/-- Object.fromEntries over an entry list: later entries win. -/
def fromEntriesLast (l : List (String × String)) : List (String × String) :=
  l.foldl (fun acc e =>
    if acc.any (fun x => x.1 = e.1) then
      acc.map (fun x => if x.1 = e.1 then e else x)
    else acc ++ [e]) []

/-- State threaded through the parameter-binding loop: the context body
cache (context._parsedBody) and the number of request.text() reads
performed, the observable for the parse-once property. -/
structure BindState where
  parsedBody : Option Json
  bodyReads : Nat

/-- Validator application tail of the body branch (router.ts lines
173-176): when a validator is attached its parse output replaces the
value; a validator failure propagates as an exception. -/
def applyValidator (validator : Option (Json → Except JsError Json))
    (v : Json) (st : BindState) : Except JsError (ArgValue × BindState) :=
  match validator with
  | some validate =>
    match validate v with
    | .ok v2 => .ok (ArgValue.json v2, st)
    | .error e => .error e
  | none => .ok (ArgValue.json v, st)

/-- Body branch of the executeHandler switch (router.ts lines 165-177):
parse once and cache on the context; an empty body text yields the empty
object without invoking JSON.parse. -/
def bindBody (jsonParse : String → Except JsError Json) (ctx : RequestContext)
    (st : BindState) (validator : Option (Json → Except JsError Json)) :
    Except JsError (ArgValue × BindState) :=
  match st.parsedBody with
  | some v => applyValidator validator v st
  | none =>
    let text := ctx.request.bodyText
    match (if text = "" then .ok (Json.obj .nil) else jsonParse text) with
    | .ok parsed => applyValidator validator parsed ⟨some parsed, st.bodyReads + 1⟩
    | .error e => .error e

/-- Query branch (router.ts lines 179-186). -/
def bindQuery (ctx : RequestContext) (st : BindState) (key : Option String) :
    Except JsError (ArgValue × BindState) :=
  match key with
  | some k =>
    match lookupFirst ctx.request.query k with
    | some s => .ok (ArgValue.str s, st)
    | none => .ok (ArgValue.nullv, st)
  | none => .ok (ArgValue.strMap (fromEntriesLast ctx.request.query), st)

/-- Route-parameter branch (router.ts lines 188-189). -/
def bindRouteParam (params : List (String × String)) (st : BindState)
    (key : Option String) : Except JsError (ArgValue × BindState) :=
  match key with
  | some k =>
    match lookupFirst params k with
    | some s => .ok (ArgValue.str s, st)
    | none => .ok (ArgValue.undef, st)
  | none => .ok (ArgValue.strMap params, st)

/-- Headers branch (router.ts lines 196-201). -/
def bindHeaders (ctx : RequestContext) (st : BindState) (key : Option String) :
    Except JsError (ArgValue × BindState) :=
  match key with
  | some k =>
    match lookupFirst ctx.request.headers k with
    | some s => .ok (ArgValue.str s, st)
    | none => .ok (ArgValue.nullv, st)
  | none => .ok (ArgValue.strMap (fromEntriesLast ctx.request.headers), st)

/-- Binding of one parameter decorator (router.ts lines 161-210 switch).
jsonParse is the host JSON.parse. -/
def bindOne (jsonParse : String → Except JsError Json) (ctx : RequestContext)
    (params : List (String × String)) (st : BindState) (d : ParamDecorator) :
    Except JsError (ArgValue × BindState) :=
  match d.type with
  | .body => bindBody jsonParse ctx st d.validator
  | .query => bindQuery ctx st d.key
  | .route => bindRouteParam params st d.key
  | .request => .ok (ArgValue.rawRequest ctx.request, st)
  | .headers => bindHeaders ctx st d.key
  | .context => .ok (ArgValue.ctx { ctx with parsedBody := st.parsedBody }, st)

/-- Positional argument assignment args[decorator.index] = value, padding
missing slots with undefined. -/
def setArg (args : List (Option ArgValue)) (i : Nat) (v : ArgValue) :
    List (Option ArgValue) :=
  match args, i with
  | [], 0 => [some v]
  | [], n + 1 => none :: setArg [] n v
  | _ :: rest, 0 => some v :: rest
  | a :: rest, n + 1 => a :: setArg rest n v

/-- Parameter-binding loop of executeHandler (router.ts lines 159-213). -/
def bindParams (jsonParse : String → Except JsError Json) (ctx : RequestContext)
    (params : List (String × String)) :
    List ParamDecorator → BindState → List (Option ArgValue) →
    Except JsError (List (Option ArgValue) × BindState)
  | [], st, args => .ok (args, st)
  | d :: ds, st, args =>
    match bindOne jsonParse ctx params st d with
    | .ok (v, st') => bindParams jsonParse ctx params ds st' (setArg args d.index v)
    | .error e => .error e

/-- Stable sort by parameter index (router.ts line 156). -/
def sortedDecorators (ds : List ParamDecorator) : List ParamDecorator :=
  List.insertionSort (fun a b => a.index ≤ b.index) ds

/-- executeHandler (router.ts lines 148-225): sort decorators by index,
bind arguments, invoke the bound handler, normalize the result (a
Response instance passes through unchanged, anything else becomes a JSON
response with default success status). -/
def executeHandler (jsonParse : String → Except JsError Json)
    (route : CompiledRoute) (ctx : RequestContext)
    (params : List (String × String)) : Except JsError ModelResponse :=
  let ds := sortedDecorators (route.metadata.paramDecorators.getD [])
  match bindParams jsonParse ctx params ds ⟨ctx.parsedBody, 0⟩ [] with
  | .error e => .error e
  | .ok (args, _) =>
    match route.handler args with
    | .error e => .error e
    | .ok (.response r) => .ok r
    | .ok (.value v) => .ok ⟨200, v⟩

/-! ## Exception filter -/

/-- DefaultExceptionFilter.catch (src/core/exception-filter.ts lines
36-77).  The context argument is only used for logging and is omitted. -/
def defaultExceptionFilterCatch (error : JsError) : ModelResponse :=
  match error.http with
  | some h =>
    match h.details with
    | some d => ⟨h.statusCode, Json.obj2 "error" (.str error.message) "details" d⟩
    | none => ⟨h.statusCode, Json.obj1 "error" (.str error.message)⟩
  | none =>
    if error.name = "ZodError" ∧ error.issues.isSome then
      ⟨400, Json.obj2 "error" (.str "Validation failed") "details" (error.issues.getD .null)⟩
    else if leadsWith "Invalid request body".data error.message.data then
      ⟨400, Json.obj2 "error" (.str "Bad Request") "message" (.str "Invalid request body")⟩
    else ⟨500, Json.obj1 "error" (.str "Internal Server Error")⟩

/-! ## The request handler -/

/-- Configuration consumed by the dispatch loop, after route compilation:
NextControllersConfig (src/types/context.ts) minus the controllers/prefix
already folded into the compiled route list. -/
structure DispatchConfig where
  routes : List CompiledRoute
  authProvider : Option (ModelRequest → Option AuthContext)
  exceptionFilter : Option (JsError → RequestContext → ModelResponse)
  onError : Option (JsError → ModelRequest → ModelResponse)

/-- handleRequest (src/core/router.ts lines 20-133).  An auth provider
returning null or throwing both leave the context unauthenticated (the
provider call is wrapped in try/catch), so the provider is modeled as
Option-returning.  The priority chain for failures is onError, then
exceptionFilter, then the built-in default filter. -/
def handleRequest (jsonParse : String → Except JsError Json)
    (cfg : DispatchConfig) (req : ModelRequest) : ModelResponse :=
  let baseContext : RequestContext := ⟨req, [], none, none⟩
  match matchRoute req.path req.method cfg.routes with
  | none =>
    ⟨404, Json.obj3 "error" (.str "Route not found")
      "path" (.str req.path) "method" (.str (methodString req.method))⟩
  | some (route, params) =>
    let ctx0 : RequestContext := ⟨req, params, none, none⟩
    let ctx :=
      match cfg.authProvider with
      | none => ctx0
      | some provider =>
        match provider req with
        | some a => { ctx0 with auth := some a }
        | none => ctx0
    let result : Except JsError ModelResponse :=
      match checkGuards (route.controllerMetadata.guards.getD []) ctx with
      | .error e => .error e
      | .ok _ =>
        match checkGuards (route.metadata.guards.getD []) ctx with
        | .error e => .error e
        | .ok _ =>
          match checkRoles route.metadata.roles ctx.auth with
          | .error e => .error e
          | .ok _ =>
            runChain (middlewareChain route) ctx
              (fun _ => executeHandler jsonParse route ctx params)
    match result with
    | .ok r => r
    | .error e =>
      match cfg.onError with
      | some h => h e req
      | none =>
        match cfg.exceptionFilter with
        | some f => f e baseContext
        | none => defaultExceptionFilterCatch e

/-! ## Decorator metadata layer

The registry entry for one (controller class, method name) pair is an
Option RouteMetadataM: none before any decorator has touched it.  Each
decorator application is a transformer of this state, embedding
src/decorators/http-methods.ts (createMethodDecorator),
src/decorators/auth.ts (Authorize) and src/decorators/middleware.ts
(Use, the ensureRouteMetadata-based version). -/

/-- registry.ensureRouteMetadata (src/core/registry.ts): get, or create
the placeholder entry with empty path, GET verb and handler name. -/
def ensureRouteMetadata (methodName : String) (st : Option RouteMetadataM) :
    RouteMetadataM :=
  match st with
  | some m => m
  | none => ⟨"", .GET, methodName, none, none, none, none⟩

/-- Verb decorator body (createMethodDecorator in
src/decorators/http-methods.ts lines 7-25): registry.setRouteMetadata
with a fresh record holding only path, method and handler name. -/
def applyMethodDecorator (method : HttpMethod) (path : String)
    (methodName : String) (_st : Option RouteMetadataM) : Option RouteMetadataM :=
  some ⟨path, method, methodName, none, none, none, none⟩

/-- Authorize decorator body (src/decorators/auth.ts lines 27-46): throws
when no route metadata exists yet, otherwise sets roles. -/
def applyAuthorize (roles : List String) (st : Option RouteMetadataM) :
    Except String (Option RouteMetadataM) :=
  match st with
  | none => .error "Route metadata not found. Make sure to use an HTTP method decorator before @Authorize."
  | some m => .ok (some { m with roles := some roles })

/-- Use decorator body (src/decorators/middleware.ts lines 50-79):
ensure the metadata record, then append the middleware list. -/
def applyUse (mws : List MiddlewareF) (methodName : String)
    (st : Option RouteMetadataM) : Option RouteMetadataM :=
  let m := ensureRouteMetadata methodName st
  some { m with middleware := some ((m.middleware.getD []) ++ mws) }

/-- UseGuard decorator body (src/decorators/middleware.ts lines 17-39):
ensure the metadata record, then append the guard list. -/
def applyUseGuard (gs : List GuardF) (methodName : String)
    (st : Option RouteMetadataM) : Option RouteMetadataM :=
  let m := ensureRouteMetadata methodName st
  some { m with guards := some ((m.guards.getD []) ++ gs) }

/-! ## Lemmas: path segmentation -/

theorem isSlash_true {c : Char} (h : isSlash c = true) : c = '/' := by
  simpa [isSlash] using h

theorem isSlash_slash : isSlash '/' = true := by decide

theorem segsOf_slash_cons (y : List Char) : segsOf ('/' :: y) = segsOf y := by
  cases y with
  | nil => simp [segsOf, isSlash]
  | cons b rest => simp [segsOf, isSlash]

theorem segsOf_cons_nonslash :
    ∀ (x : List Char) (b : Char), isSlash b = false →
    ∃ s ss, segsOf (b :: x) = (b :: s) :: ss := by
  intro x
  induction x with
  | nil => exact fun b hb => ⟨[], [], by simp [segsOf, hb]⟩
  | cons c x ih =>
    intro b hb
    cases hc : isSlash c with
    | true => exact ⟨[], segsOf (c :: x), by simp [segsOf, hb, hc]⟩
    | false =>
      obtain ⟨s, ss, hs⟩ := ih c hc
      exact ⟨c :: s, ss, by simp [segsOf, hb, hc, hs]⟩

theorem segsOf_append_slash :
    ∀ (x y : List Char), segsOf (x ++ '/' :: y) = segsOf x ++ segsOf y := by
  intro x y
  induction x with
  | nil => simpa using segsOf_slash_cons y
  | cons a x ih =>
    cases x with
    | nil =>
      cases ha : isSlash a with
      | true => simp [segsOf, ha, segsOf_slash_cons]
      | false =>
        have ha' : ¬ a = '/' := by
          intro h; rw [h] at ha; exact absurd ha (by decide)
        simp [segsOf, ha, isSlash, segsOf_slash_cons, ha']
    | cons b rest =>
      cases ha : isSlash a with
      | true =>
        simpa [segsOf, ha] using ih
      | false =>
        cases hb : isSlash b with
        | true => simp [segsOf, ha, hb, List.cons_append] at ih ⊢; exact ih
        | false =>
          obtain ⟨s, ss, hs⟩ := segsOf_cons_nonslash rest b hb
          have lhs' : segsOf ((b :: rest) ++ '/' :: y) = (b :: s) :: (ss ++ segsOf y) := by
            rw [ih, hs]; simp
          simp only [List.cons_append] at lhs'
          simp [segsOf, ha, hb, hs, lhs']

theorem segsOf_clean :
    ∀ (l : List Char), ∀ s ∈ segsOf l, s ≠ [] ∧ ∀ c ∈ s, isSlash c = false := by
  intro l
  induction l with
  | nil => simp [segsOf]
  | cons a l ih =>
    cases l with
    | nil =>
      cases ha : isSlash a with
      | true => simp [segsOf, ha]
      | false =>
        intro s hs
        simp [segsOf, ha] at hs
        subst hs
        exact ⟨by simp, by intro c hc; simp at hc; subst hc; exact ha⟩
    | cons b rest =>
      cases ha : isSlash a with
      | true =>
        intro s hs
        rw [show segsOf (a :: b :: rest) = segsOf (b :: rest) by simp [segsOf, ha]] at hs
        exact ih s hs
      | false =>
        cases hb : isSlash b with
        | true =>
          intro s hs
          rw [show segsOf (a :: b :: rest) = [a] :: segsOf (b :: rest) by
            simp [segsOf, ha, hb]] at hs
          rcases List.mem_cons.mp hs with hs | hs
          · subst hs
            exact ⟨by simp, by intro c hc; simp at hc; subst hc; exact ha⟩
          · exact ih s hs
        | false =>
          intro s hs
          obtain ⟨s0, ss0, h0⟩ := segsOf_cons_nonslash rest b hb
          rw [show segsOf (a :: b :: rest) = (a :: b :: s0) :: ss0 by
            simp [segsOf, ha, hb, h0]] at hs
          rcases List.mem_cons.mp hs with hs | hs
          · subst hs
            refine ⟨by simp, ?_⟩
            intro c hc
            have hmem : b :: s0 ∈ segsOf (b :: rest) := by rw [h0]; simp
            obtain ⟨-, hall⟩ := ih (b :: s0) hmem
            rcases List.mem_cons.mp hc with hc | hc
            · subst hc; exact ha
            · exact hall c hc
          · refine ih s ?_
            rw [h0]; simp [hs]

theorem segsOf_clean_single :
    ∀ (s : List Char), s ≠ [] → (∀ c ∈ s, isSlash c = false) → segsOf s = [s] := by
  intro s
  induction s with
  | nil => intro h; exact absurd rfl h
  | cons a s ih =>
    intro _ hclean
    have ha : isSlash a = false := hclean a (by simp)
    cases s with
    | nil => simp [segsOf, ha]
    | cons b rest =>
      have hb : isSlash b = false := hclean b (by simp)
      have htail : segsOf (b :: rest) = [b :: rest] := by
        refine ih (by simp) ?_
        intro c hc
        exact hclean c (by simp [hc])
      simp [segsOf, ha, hb, htail]

theorem segsOf_eq_nil_all_slash :
    ∀ (l : List Char), segsOf l = [] → ∀ c ∈ l, isSlash c = true := by
  intro l
  induction l with
  | nil => simp
  | cons a l ih =>
    intro hnil c hc
    cases l with
    | nil =>
      cases ha : isSlash a with
      | true => simp at hc; subst hc; exact ha
      | false => simp [segsOf, ha] at hnil
    | cons b rest =>
      cases ha : isSlash a with
      | true =>
        rw [show segsOf (a :: b :: rest) = segsOf (b :: rest) by simp [segsOf, ha]] at hnil
        rcases List.mem_cons.mp hc with hc | hc
        · subst hc; exact ha
        · exact ih hnil c hc
      | false =>
        cases hb : isSlash b with
        | true => simp [segsOf, ha, hb] at hnil
        | false =>
          obtain ⟨s0, ss0, h0⟩ := segsOf_cons_nonslash rest b hb
          rw [show segsOf (a :: b :: rest) = (a :: b :: s0) :: ss0 by
            simp [segsOf, ha, hb, h0]] at hnil
          exact absurd hnil (by simp)

/-! ## Lemmas: collapse and normalization structure -/

theorem intercalate_nil_chars : List.intercalate ['/'] ([] : List (List Char)) = [] := by
  simp [List.intercalate]

theorem intercalate_single_chars (a : List Char) : List.intercalate ['/'] [a] = a := by
  simp [List.intercalate]

theorem intercalate_cons_cons_chars (a b : List Char) (rest : List (List Char)) :
    List.intercalate ['/'] (a :: b :: rest) = a ++ '/' :: List.intercalate ['/'] (b :: rest) := by
  simp [List.intercalate, List.intersperse]

theorem intercalate_clean_ne_nil :
    ∀ (ss : List (List Char)), ss ≠ [] → (∀ s ∈ ss, s ≠ []) →
    List.intercalate ['/'] ss ≠ [] := by
  intro ss hne hclean
  cases ss with
  | nil => exact absurd rfl hne
  | cons a rest =>
    cases rest with
    | nil =>
      rw [intercalate_single_chars]
      exact hclean a (by simp)
    | cons b rest2 =>
      rw [intercalate_cons_cons_chars]
      intro h
      have := hclean a (by simp)
      cases a with
      | nil => exact this rfl
      | cons x xs => simp at h

theorem intercalate_clean_head :
    ∀ (ss : List (List Char)), (∀ s ∈ ss, s ≠ [] ∧ ∀ c ∈ s, isSlash c = false) →
    ∀ c, (List.intercalate ['/'] ss).head? = some c → isSlash c = false := by
  intro ss hclean c hc
  cases ss with
  | nil => rw [intercalate_nil_chars] at hc; simp at hc
  | cons a rest =>
    obtain ⟨hne, hall⟩ := hclean a (by simp)
    obtain ⟨x, xs, rfl⟩ := List.exists_cons_of_ne_nil hne
    have hx : isSlash x = false := hall x (by simp)
    cases rest with
    | nil =>
      rw [intercalate_single_chars] at hc
      simp at hc; subst hc; exact hx
    | cons b rest2 =>
      rw [intercalate_cons_cons_chars] at hc
      simp at hc; subst hc; exact hx

theorem intercalate_clean_last :
    ∀ (ss : List (List Char)), (∀ s ∈ ss, s ≠ [] ∧ ∀ c ∈ s, isSlash c = false) →
    ∀ c, (List.intercalate ['/'] ss).getLast? = some c → isSlash c = false := by
  intro ss
  induction ss with
  | nil => intro _ c hc; rw [intercalate_nil_chars] at hc; simp at hc
  | cons a rest ih =>
    intro hclean c hc
    cases rest with
    | nil =>
      rw [intercalate_single_chars] at hc
      obtain ⟨-, hall⟩ := hclean a (by simp)
      exact hall c (List.mem_of_mem_getLast? hc)
    | cons b rest2 =>
      rw [intercalate_cons_cons_chars] at hc
      have hclean' : ∀ s ∈ b :: rest2, s ≠ [] ∧ ∀ c ∈ s, isSlash c = false := by
        intro s hs; exact hclean s (by simp [hs])
      have hne : List.intercalate ['/'] (b :: rest2) ≠ [] := by
        refine intercalate_clean_ne_nil _ (by simp) ?_
        intro s hs; exact (hclean' s hs).1
      rw [List.getLast?_append_of_ne_nil _ (by simp)] at hc
      obtain ⟨x, xs, hxl⟩ := List.exists_cons_of_ne_nil hne
      rw [hxl, show ('/' :: x :: xs).getLast? = (x :: xs).getLast? by simp [List.getLast?]] at hc
      exact ih hclean' c (by rw [hxl]; exact hc)

/-- Leading-slash marker of a raw joined path. -/
def optHead (l : List Char) : List Char :=
  if l.head? = some '/' then ['/'] else []

/-- Trailing-slash marker of a raw joined path, present only when there
is at least one segment. -/
def optTail (l : List Char) : List Char :=
  if segsOf l ≠ [] ∧ l.getLast? = some '/' then ['/'] else []

theorem isSlash_false_ne {c : Char} (h : isSlash c = false) : ¬ c = '/' := by
  intro hc; rw [hc] at h; exact absurd h (by decide)

theorem all_slash_getLast :
    ∀ (l : List Char), l ≠ [] → (∀ c ∈ l, isSlash c = true) →
    l.getLast? = some '/' := by
  intro l hne hall
  cases hg : l.getLast? with
  | none => exact absurd (List.getLast?_eq_none_iff.mp hg) hne
  | some c =>
    have := hall c (List.mem_of_mem_getLast? hg)
    simp [isSlash_true this]

theorem collapseSlashes_eq :
    ∀ (l : List Char),
    collapseSlashes l = optHead l ++ List.intercalate ['/'] (segsOf l) ++ optTail l := by
  intro l
  induction l with
  | nil => simp [collapseSlashes, optHead, optTail, segsOf, intercalate_nil_chars]
  | cons a l ih =>
    cases l with
    | nil =>
      cases ha : isSlash a with
      | true =>
        have ha' := isSlash_true ha
        subst ha'
        simp [collapseSlashes, optHead, optTail, segsOf, isSlash, intercalate_nil_chars]
      | false =>
        simp [collapseSlashes, optHead, optTail, segsOf, ha, isSlash_false_ne ha,
          intercalate_single_chars, List.getLast?]
    | cons b rest =>
      have hlast : (a :: b :: rest).getLast? = (b :: rest).getLast? := by
        simp [List.getLast?]
      cases ha : isSlash a with
      | true =>
        have ha' := isSlash_true ha
        subst ha'
        have hsegs : segsOf ('/' :: b :: rest) = segsOf (b :: rest) := segsOf_slash_cons _
        cases hb : isSlash b with
        | true =>
          have hb' := isSlash_true hb
          subst hb'
          have hcol : collapseSlashes ('/' :: '/' :: rest) = collapseSlashes ('/' :: rest) := by
            simp [collapseSlashes, isSlash]
          have hoh : optHead ('/' :: '/' :: rest) = optHead ('/' :: rest) := by
            simp [optHead]
          have hot : optTail ('/' :: '/' :: rest) = optTail ('/' :: rest) := by
            simp only [optTail, segsOf_slash_cons, hlast]
          rw [hcol, ih, hsegs, hoh, hot]
        | false =>
          have hcol : collapseSlashes ('/' :: b :: rest) = '/' :: collapseSlashes (b :: rest) := by
            simp [collapseSlashes, isSlash, hb, isSlash_false_ne hb]
          have hohb : optHead (b :: rest) = [] := by
            simp [optHead, isSlash_false_ne hb]
          have hoh : optHead ('/' :: b :: rest) = ['/'] := by simp [optHead]
          have hot : optTail ('/' :: b :: rest) = optTail (b :: rest) := by
            simp only [optTail, segsOf_slash_cons, hlast]
          rw [hcol, ih, hohb, hoh, hsegs, hot]
          simp
      | false =>
        have hoh : optHead (a :: b :: rest) = [] := by
          simp [optHead, isSlash_false_ne ha]
        cases hb : isSlash b with
        | true =>
          have hb' := isSlash_true hb
          subst hb'
          have hcol : collapseSlashes (a :: '/' :: rest) = a :: collapseSlashes ('/' :: rest) := by
            simp [collapseSlashes, ha, isSlash_false_ne ha]
          have hsegs : segsOf (a :: '/' :: rest) = [a] :: segsOf ('/' :: rest) := by
            simp [segsOf, ha, isSlash, isSlash_false_ne ha]
          have hohr : optHead ('/' :: rest) = ['/'] := by simp [optHead]
          cases hrs : segsOf ('/' :: rest) with
          | nil =>
            have hotr : optTail ('/' :: rest) = [] := by simp [optTail, hrs]
            have hlast2 : (a :: '/' :: rest).getLast? = some '/' := by
              rw [hlast]
              exact all_slash_getLast _ (by simp) (segsOf_eq_nil_all_slash _ hrs)
            have hot : optTail (a :: '/' :: rest) = ['/'] := by
              simp [optTail, hsegs, hrs, hlast2]
            rw [hcol, ih, hoh, hsegs, hohr, hotr, hot, hrs]
            simp [intercalate_single_chars, intercalate_nil_chars]
          | cons s0 ss0 =>
            have hot : optTail (a :: '/' :: rest) = optTail ('/' :: rest) := by
              simp only [optTail, hsegs, hrs, hlast]
              simp
            rw [hcol, ih, hoh, hsegs, hohr, hot, hrs, intercalate_cons_cons_chars]
            simp
        | false =>
          obtain ⟨s0, ss0, h0⟩ := segsOf_cons_nonslash rest b hb
          have hcol : collapseSlashes (a :: b :: rest) = a :: collapseSlashes (b :: rest) := by
            simp [collapseSlashes, ha]
          have hsegs : segsOf (a :: b :: rest) = (a :: b :: s0) :: ss0 := by
            simp [segsOf, ha, hb, h0]
          have hohb : optHead (b :: rest) = [] := by
            simp [optHead, isSlash_false_ne hb]
          have hot : optTail (a :: b :: rest) = optTail (b :: rest) := by
            simp only [optTail, hsegs, h0, hlast]
            simp
          rw [hcol, ih, hoh, hohb, hsegs, h0, hot]
          cases ss0 with
          | nil =>
            simp [intercalate_single_chars]
          | cons t ts =>
            rw [intercalate_cons_cons_chars, intercalate_cons_cons_chars]
            simp

theorem normShape (l : List Char) :
    leadSlash (trimTrail (collapseSlashes l)) = renderSegs (segsOf l) := by
  rw [collapseSlashes_eq]
  cases hs : segsOf l with
  | nil =>
    have hot : optTail l = [] := by simp [optTail, hs]
    rw [hot, intercalate_nil_chars]
    by_cases hh : l.head? = some '/'
    · simp [optHead, hh, trimTrail, leadSlash, renderSegs]
    · simp [optHead, hh, trimTrail, leadSlash, renderSegs]
  | cons s0 ss0 =>
    have hclean : ∀ s ∈ s0 :: ss0, s ≠ [] ∧ ∀ c ∈ s, isSlash c = false := by
      rw [← hs]; exact segsOf_clean l
    have hne : List.intercalate ['/'] (s0 :: ss0) ≠ [] :=
      intercalate_clean_ne_nil _ (by simp) (fun s hs2 => (hclean s hs2).1)
    obtain ⟨c0, crest, hIc⟩ := List.exists_cons_of_ne_nil hne
    have hc0 : isSlash c0 = false := by
      refine intercalate_clean_head _ hclean c0 ?_
      rw [hIc]; rfl
    have hc0' : ¬ c0 = '/' := isSlash_false_ne hc0
    have hlead : leadSlash (List.intercalate ['/'] (s0 :: ss0)) =
        '/' :: List.intercalate ['/'] (s0 :: ss0) := by
      rw [hIc]; simp [leadSlash, hc0']
    have hleadH : ∀ t : List Char,
        leadSlash (optHead l ++ t) = if optHead l = ['/'] then optHead l ++ t else leadSlash t := by
      intro t
      by_cases hh : l.head? = some '/'
      · simp [optHead, hh, leadSlash]
      · simp [optHead, hh, leadSlash]
    have hlastI : ∀ c, (List.intercalate ['/'] (s0 :: ss0)).getLast? = some c →
        isSlash c = false := intercalate_clean_last _ hclean
    by_cases hg : l.getLast? = some '/'
    · have hot : optTail l = ['/'] := by simp [optTail, hs, hg]
      rw [hot]
      have hassoc : optHead l ++ List.intercalate ['/'] (s0 :: ss0) ++ ['/'] =
          (optHead l ++ List.intercalate ['/'] (s0 :: ss0)) ++ ['/'] := by simp
      rw [hassoc]
      have htrim : trimTrail ((optHead l ++ List.intercalate ['/'] (s0 :: ss0)) ++ ['/']) =
          optHead l ++ List.intercalate ['/'] (s0 :: ss0) := by
        unfold trimTrail
        rw [if_pos]
        · exact List.dropLast_concat
        constructor
        · have hIlen : 0 < (List.intercalate ['/'] (s0 :: ss0)).length :=
            List.length_pos.mpr hne
          simp only [List.length_append, List.length_cons, List.length_nil]
          omega
        · exact List.getLast?_concat _
      rw [htrim, hleadH]
      by_cases hh : optHead l = ['/']
      · rw [if_pos hh, hh]
        simp [renderSegs]
      · rw [if_neg hh, hlead]
        simp [renderSegs]
    · have hot : optTail l = [] := by simp [optTail, hs, hg]
      rw [hot, List.append_nil]
      have htrim : trimTrail (optHead l ++ List.intercalate ['/'] (s0 :: ss0)) =
          optHead l ++ List.intercalate ['/'] (s0 :: ss0) := by
        unfold trimTrail
        rw [if_neg]
        intro hcon
        obtain ⟨-, hlastc⟩ := hcon
        rw [List.getLast?_append_of_ne_nil _ hne] at hlastc
        have := hlastI '/' hlastc
        exact absurd this (by decide)
      rw [htrim, hleadH]
      by_cases hh : optHead l = ['/']
      · rw [if_pos hh, hh]
        simp [renderSegs]
      · rw [if_neg hh, hlead]
        simp [renderSegs]

theorem segsOf_joinSlash :
    ∀ (paths : List (List Char)), segsOf (joinSlash paths) = (paths.map segsOf).flatten := by
  intro paths
  induction paths with
  | nil => simp [joinSlash, intercalate_nil_chars, segsOf]
  | cons a rest ih =>
    cases rest with
    | nil => simp [joinSlash, intercalate_single_chars]
    | cons b rest2 =>
      rw [joinSlash, intercalate_cons_cons_chars, segsOf_append_slash]
      rw [show List.intercalate ['/'] (b :: rest2) = joinSlash (b :: rest2) from rfl, ih]
      simp

theorem normChars_eq (paths : List (List Char)) :
    normChars paths = renderSegs ((paths.map segsOf).flatten) := by
  unfold normChars
  rw [normShape, segsOf_joinSlash]

theorem segsOf_intercalate_clean :
    ∀ (ss : List (List Char)), (∀ s ∈ ss, s ≠ [] ∧ ∀ c ∈ s, isSlash c = false) →
    segsOf (List.intercalate ['/'] ss) = ss := by
  intro ss
  induction ss with
  | nil => intro _; simp [intercalate_nil_chars, segsOf]
  | cons a rest ih =>
    intro hclean
    cases rest with
    | nil =>
      rw [intercalate_single_chars]
      obtain ⟨hne, hall⟩ := hclean a (by simp)
      exact segsOf_clean_single a hne hall
    | cons b rest2 =>
      rw [intercalate_cons_cons_chars, segsOf_append_slash]
      obtain ⟨hne, hall⟩ := hclean a (by simp)
      rw [segsOf_clean_single a hne hall, ih (fun s hsm => hclean s (by simp [hsm]))]
      simp

theorem segsOf_renderSegs (ss : List (List Char))
    (hclean : ∀ s ∈ ss, s ≠ [] ∧ ∀ c ∈ s, isSlash c = false) :
    segsOf (renderSegs ss) = ss := by
  cases ss with
  | nil => simp [renderSegs, segsOf, isSlash]
  | cons s0 ss0 =>
    rw [show renderSegs (s0 :: ss0) = '/' :: List.intercalate ['/'] (s0 :: ss0) from rfl]
    rw [segsOf_slash_cons]
    exact segsOf_intercalate_clean _ hclean

theorem join_map_segsOf_clean (paths : List (List Char)) :
    ∀ s ∈ (paths.map segsOf).flatten, s ≠ [] ∧ ∀ c ∈ s, isSlash c = false := by
  intro s hs
  rw [List.mem_flatten] at hs
  obtain ⟨l, hl, hsl⟩ := hs
  rw [List.mem_map] at hl
  obtain ⟨p, _, hp⟩ := hl
  exact segsOf_clean p s (hp ▸ hsl)

/-- Segments of a normalized path: concatenation of the segments of the
individual arguments. -/
theorem segsOf_normChars (paths : List (List Char)) :
    segsOf (normChars paths) = (paths.map segsOf).flatten := by
  rw [normChars_eq]
  exact segsOf_renderSegs _ (join_map_segsOf_clean paths)

theorem head_normChars (paths : List (List Char)) :
    (normChars paths).head? = some '/' := by
  rw [normChars_eq]
  cases h : (paths.map segsOf).flatten with
  | nil => simp [renderSegs]
  | cons s ss => simp [renderSegs]

theorem getLast_normChars (paths : List (List Char))
    (h : normChars paths ≠ ['/']) : (normChars paths).getLast? ≠ some '/' := by
  rw [normChars_eq] at h ⊢
  cases hf : (paths.map segsOf).flatten with
  | nil => rw [hf] at h; simp [renderSegs] at h
  | cons s0 ss0 =>
    have hclean : ∀ s ∈ s0 :: ss0, s ≠ [] ∧ ∀ c ∈ s, isSlash c = false := by
      rw [← hf]; exact join_map_segsOf_clean paths
    have hne : List.intercalate ['/'] (s0 :: ss0) ≠ [] :=
      intercalate_clean_ne_nil _ (by simp) (fun s hs2 => (hclean s hs2).1)
    rw [show renderSegs (s0 :: ss0) = '/' :: List.intercalate ['/'] (s0 :: ss0) from rfl]
    obtain ⟨x, xs, hxl⟩ := List.exists_cons_of_ne_nil hne
    rw [hxl, show ('/' :: x :: xs).getLast? = (x :: xs).getLast? by simp [List.getLast?]]
    intro hcon
    have := intercalate_clean_last _ hclean '/' (by rw [hxl]; exact hcon)
    exact absurd this (by decide)

/-- C9: the path normalization function of the route compiler
(normalizePath, src/core/registry.ts matcher lines 132-138) satisfies
normalize(normalize(a,b), c) = normalize(a,b,c) for all segment strings;
it joins its arguments with '/' and collapses repeated slashes (this is
the definition of normChars, whose canonical form is proved in
normChars_eq), guarantees a leading slash, trims a single trailing slash
unless the result is the bare root, and treats empty segments as
no-ops. -/
theorem c9_normalize_idempotent :
    (∀ a b c : String, normalizePath [normalizePath [a, b], c] = normalizePath [a, b, c])
    ∧ (∀ ps : List String, (normalizePath ps).data.head? = some '/')
    ∧ (∀ ps : List String, normalizePath ps ≠ "/" →
        (normalizePath ps).data.getLast? ≠ some '/')
    ∧ (∀ xs ys : List String, normalizePath (xs ++ "" :: ys) = normalizePath (xs ++ ys)) := by
  refine ⟨?_, ?_, ?_, ?_⟩
  · intro a b c
    show String.mk (normChars [normChars [a.data, b.data], c.data]) =
      String.mk (normChars [a.data, b.data, c.data])
    congr 1
    calc normChars [normChars [a.data, b.data], c.data]
        = renderSegs ((([normChars [a.data, b.data], c.data]).map segsOf).flatten) :=
          normChars_eq _
      _ = renderSegs ((([a.data, b.data, c.data]).map segsOf).flatten) := by
          simp [segsOf_normChars]
      _ = normChars [a.data, b.data, c.data] := (normChars_eq _).symm
  · intro ps
    exact head_normChars (ps.map String.data)
  · intro ps hne
    refine getLast_normChars (ps.map String.data) ?_
    intro hcon
    apply hne
    show String.mk (normChars (ps.map String.data)) = "/"
    rw [hcon]
  · intro xs ys
    show String.mk (normChars ((xs ++ "" :: ys).map String.data)) =
      String.mk (normChars ((xs ++ ys).map String.data))
    congr 1
    calc normChars ((xs ++ "" :: ys).map String.data)
        = renderSegs ((((xs ++ "" :: ys).map String.data).map segsOf).flatten) :=
          normChars_eq _
      _ = renderSegs ((((xs ++ ys).map String.data).map segsOf).flatten) := by
          simp [segsOf]
      _ = normChars ((xs ++ ys).map String.data) := (normChars_eq _).symm

/-- Witness for c9_normalize_idempotent evaluated at concrete inputs. -/
theorem c9_normalize_idempotent_witness :
    normalizePath [normalizePath ["/api", "users"], "v1"] = normalizePath ["/api", "users", "v1"]
    ∧ (normalizePath ["/api", "users"] ≠ "/"
       ∧ (normalizePath ["/api", "users"]).data.getLast? ≠ some '/') :=
  ⟨c9_normalize_idempotent.1 "/api" "users" "v1",
   by decide,
   c9_normalize_idempotent.2.2.1 ["/api", "users"] (by decide)⟩

/-! ## Lemmas: the specificity comparator -/

theorem segLoopCmp_neg : ∀ (as bs : List (List Char)),
    segLoopCmp as bs = -(segLoopCmp bs as) := by
  intro as
  induction as with
  | nil => intro bs; cases bs <;> simp [segLoopCmp]
  | cons a as ih =>
    intro bs
    cases bs with
    | nil => simp [segLoopCmp]
    | cons b bs =>
      cases da : isDynSeg a <;> cases db : isDynSeg b <;>
        simp [segLoopCmp, da, db, ih bs]

theorem cmpSegs_neg (as bs : List (List Char)) :
    cmpSegs as bs = -(cmpSegs bs as) := by
  unfold cmpSegs
  by_cases h1 : as.length = bs.length
  · by_cases h2 : staticCount as = staticCount bs
    · simp [h1, h2, segLoopCmp_neg as bs]
    · simp [h1, h2, Ne.symm h2]
  · simp [h1, Ne.symm h1]

theorem segLoopCmp_le_trans :
    ∀ (as bs cs : List (List Char)), as.length = bs.length → bs.length = cs.length →
    segLoopCmp as bs ≤ 0 → segLoopCmp bs cs ≤ 0 → segLoopCmp as cs ≤ 0 := by
  intro as
  induction as with
  | nil =>
    intro bs cs h1 _ _ _
    cases cs <;> simp [segLoopCmp]
  | cons a as ih =>
    intro bs cs hl1 hl2 h1 h2
    cases bs with
    | nil => simp at hl1
    | cons b bs =>
      cases cs with
      | nil => simp at hl2
      | cons c cs =>
        simp only [List.length_cons] at hl1 hl2
        cases da : isDynSeg a <;> cases db : isDynSeg b <;> cases dc : isDynSeg c <;>
          simp [segLoopCmp, da, db, dc] at h1 h2 ⊢
        · exact ih bs cs (by omega) (by omega) h1 h2
        · exact ih bs cs (by omega) (by omega) h1 h2

theorem cmpSegs_le_trans (as bs cs : List (List Char))
    (h1 : cmpSegs as bs ≤ 0) (h2 : cmpSegs bs cs ≤ 0) : cmpSegs as cs ≤ 0 := by
  unfold cmpSegs at h1 h2 ⊢
  by_cases e1 : as.length = bs.length <;> by_cases e2 : bs.length = cs.length <;>
    simp [e1, e2] at h1 h2
  · by_cases s1 : staticCount as = staticCount bs <;>
      by_cases s2 : staticCount bs = staticCount cs <;> simp [s1, s2] at h1 h2
    · simp [e1.trans e2, s1.trans s2]
      exact segLoopCmp_le_trans as bs cs e1 e2 h1 h2
    · simp only [e1.trans e2, ne_eq, not_true_eq_false, if_false, ite_not, if_neg]
      simp [e1.trans e2, s1]
      rw [if_neg s2]
      omega
    · simp [e1.trans e2]
      have hac : ¬ staticCount as = staticCount cs := by omega
      rw [if_neg hac] at h1 ⊢
      exact h1
    · simp [e1.trans e2]
      have hac : ¬ staticCount as = staticCount cs := by omega
      rw [if_neg hac]
      omega
  · have hac : as.length ≠ cs.length := by omega
    simp [hac]
    omega
  · have hac : as.length ≠ cs.length := by omega
    simp [hac]
    omega
  · have hac : as.length ≠ cs.length := by omega
    simp [hac]
    omega

theorem staticCount_append (q x : List (List Char)) :
    staticCount (q ++ x) = staticCount q + staticCount x := by
  unfold staticCount
  rw [List.filter_append, List.length_append]

theorem segLoopCmp_append : ∀ (q x y : List (List Char)),
    segLoopCmp (q ++ x) (q ++ y) = segLoopCmp x y := by
  intro q x y
  induction q with
  | nil => rfl
  | cons s q ih =>
    cases ds : isDynSeg s <;> simp [segLoopCmp, ds, ih]

theorem cmpSegs_append (q x y : List (List Char)) :
    cmpSegs (q ++ x) (q ++ y) = cmpSegs x y := by
  unfold cmpSegs
  rw [segLoopCmp_append, List.length_append, List.length_append,
    staticCount_append, staticCount_append]
  by_cases h1 : x.length = y.length
  · by_cases h2 : staticCount x = staticCount y
    · simp [h1, h2]
    · have h2' : ¬ (staticCount q + staticCount x = staticCount q + staticCount y) := by omega
      simp [h1, h2, h2']
  · have h1' : ¬ (q.length + x.length = q.length + y.length) := by omega
    simp [h1, h1']

instance : IsTotal CompiledRoute routeLe :=
  ⟨fun a b => by
    unfold routeLe routeCompare
    rw [cmpSegs_neg (sortKeySegs a) (sortKeySegs b)]
    omega⟩

instance : IsTrans CompiledRoute routeLe :=
  ⟨fun a b c h1 h2 => cmpSegs_le_trans _ _ _ h1 h2⟩

/-! ## Lemmas: the loader invariant -/

theorem compileRoutesFor_fullPath (pfx : String) (cm : ControllerMetadataM)
    (members : String → Option HandlerFn) :
    ∀ (rms : List RouteMetadataM) (rs : List CompiledRoute),
    compileRoutesFor pfx cm members rms = .ok rs →
    ∀ r ∈ rs, r.fullPath = normalizePath [pfx, r.controllerMetadata.basePath, r.metadata.path] := by
  intro rms
  induction rms with
  | nil =>
    intro rs h r hr
    simp [compileRoutesFor] at h
    subst h
    simp at hr
  | cons rm rest ih =>
    intro rs h r hr
    unfold compileRoutesFor at h
    cases hm : members rm.handler with
    | none => rw [hm] at h; exact absurd h (by simp)
    | some hf =>
      rw [hm] at h
      cases hrest : compileRoutesFor pfx cm members rest with
      | error e => rw [hrest] at h; exact absurd h (by simp)
      | ok rs' =>
        rw [hrest] at h
        simp at h
        subst h
        rcases List.mem_cons.mp hr with hr | hr
        · subst hr
          rfl
        · exact ih rs' hrest r hr

theorem buildRoutes_fullPath (pfx : String) :
    ∀ (ctrls : List ControllerDef) (rs : List CompiledRoute),
    buildRoutes pfx ctrls = .ok rs →
    ∀ r ∈ rs, r.fullPath = normalizePath [pfx, r.controllerMetadata.basePath, r.metadata.path] := by
  intro ctrls
  induction ctrls with
  | nil =>
    intro rs h r hr
    simp [buildRoutes] at h
    subst h
    simp at hr
  | cons c cs ih =>
    intro rs h r hr
    unfold buildRoutes at h
    cases hcm : c.controllerMetadata with
    | none =>
      simp only [hcm] at h
      exact ih rs h r hr
    | some cm =>
      simp only [hcm] at h
      cases hcf : compileRoutesFor pfx cm c.members c.routes with
      | error e => simp only [hcf] at h; exact absurd h (by simp)
      | ok rs1 =>
        simp only [hcf] at h
        cases hbr : buildRoutes pfx cs with
        | error e => simp only [hbr] at h; exact absurd h (by simp)
        | ok rs2 =>
          simp only [hbr] at h
          simp at h
          subst h
          rcases List.mem_append.mp hr with hr | hr
          · exact compileRoutesFor_fullPath pfx cm c.members c.routes rs1 hcf r hr
          · exact ih rs2 hbr r hr

theorem fullSegments_eq (pfx : String) (r : CompiledRoute)
    (h : r.fullPath = normalizePath [pfx, r.controllerMetadata.basePath, r.metadata.path]) :
    fullSegments r = segsOf pfx.data ++ sortKeySegs r := by
  unfold fullSegments sortKeySegs
  rw [h]
  show segsOf (normChars [pfx.data, r.controllerMetadata.basePath.data, r.metadata.path.data]) = _
  rw [segsOf_normChars, segsOf_normChars]
  simp

/-! ## C1: the loader output is sorted by specificity -/

/-- Route metadata carrying only a path and GET verb, as the verb
decorator records it. -/
def plainRoute (p : String) : RouteMetadataM :=
  ⟨p, .GET, p, none, none, none, none⟩

/-- Trivial handler used by the concrete controllers. -/
def nullHandler : HandlerFn := fun _ => .ok (.value .null)

/-- Product controller of the spec scenario: routes /, /featured and /:id
under base path /products, declared with the static route first. -/
def productController : ControllerDef :=
  ⟨some ⟨"/products", none, none⟩,
   [plainRoute "/", plainRoute "/featured", plainRoute "/:id"],
   fun _ => some nullHandler⟩

/-- The same controller with the dynamic route declared before the static
one. -/
def productControllerRev : ControllerDef :=
  ⟨some ⟨"/products", none, none⟩,
   [plainRoute "/:id", plainRoute "/featured", plainRoute "/"],
   fun _ => some nullHandler⟩

/-- C1: every route list produced by the controller loader is sorted by
the specificity comparator applied to full (prefix-included) paths: more
segments first, ties broken by more static segments, further ties by the
left-to-right static-before-dynamic comparison (cmpSegs); and for the
/products controller the /products/featured route precedes /products/:id
in the output regardless of the declaration order. -/
theorem c1_loader_sorted_by_specificity :
    (∀ (ctrls : List ControllerDef) (pfx : String) (rs : List CompiledRoute),
      loadControllers ctrls pfx = .ok rs →
      rs.Pairwise (fun a b => cmpSegs (fullSegments a) (fullSegments b) ≤ 0))
    ∧ (loadControllers [productController] "").map
        (fun rs => rs.map (fun r => r.metadata.path)) = .ok ["/featured", "/:id", "/"]
    ∧ (loadControllers [productControllerRev] "").map
        (fun rs => rs.map (fun r => r.metadata.path)) = .ok ["/featured", "/:id", "/"] := by
  refine ⟨?_, by rfl, by rfl⟩
  intro ctrls pfx rs h
  unfold loadControllers at h
  cases hbr : buildRoutes pfx ctrls with
  | error e => rw [hbr] at h; exact absurd h (by simp)
  | ok rs0 =>
    rw [hbr] at h
    simp at h
    subst h
    have hsorted : (List.insertionSort routeLe rs0).Pairwise routeLe :=
      List.sorted_insertionSort routeLe rs0
    have hinv : ∀ r ∈ List.insertionSort routeLe rs0,
        r.fullPath = normalizePath [pfx, r.controllerMetadata.basePath, r.metadata.path] := by
      intro r hr
      exact buildRoutes_fullPath pfx ctrls rs0 hbr r (by
        exact (List.mem_insertionSort routeLe).mp hr)
    refine hsorted.imp_of_mem ?_
    intro a b ha hb hle
    have hfa := fullSegments_eq pfx a (hinv a ha)
    have hfb := fullSegments_eq pfx b (hinv b hb)
    rw [hfa, hfb, cmpSegs_append]
    exact hle

/-- Concrete loader output for the /products controller. -/
def loadedProductRoutes : List CompiledRoute :=
  match loadControllers [productController] "" with
  | .ok rs => rs
  | .error _ => []

/-- Witness for c1_loader_sorted_by_specificity: the sortedness part
applied to the concrete /products controller load. -/
theorem c1_loader_sorted_witness :
    loadedProductRoutes.Pairwise
      (fun a b => cmpSegs (fullSegments a) (fullSegments b) ≤ 0) :=
  c1_loader_sorted_by_specificity.1 [productController] "" loadedProductRoutes rfl

/-! ## C2: role authorization -/

/-- Host JSON.parse stand-in for scenarios that never parse a body. -/
def defaultParse : String → Except JsError Json := fun _ => .ok .null

/-- Route with roles = [] (authentication required, no specific role),
returning a 200 JSON body. -/
def c2Route : CompiledRoute :=
  ⟨"/things", [], .GET,
   fun _ => .ok (.value (Json.obj1 "ok" (.bool true))),
   ⟨"/", .GET, "list", none, none, some [], none⟩,
   ⟨"/things", none, none⟩⟩

def c2Request : ModelRequest := ⟨"/things", .GET, "", [], []⟩

/-- Dispatch configuration with no auth provider. -/
def c2Config : DispatchConfig := ⟨[c2Route], none, none, none⟩

/-- Dispatch configuration whose auth provider always authenticates. -/
def c2ConfigAuthed : DispatchConfig :=
  ⟨[c2Route], some (fun _ => some ⟨"u1", ["anything"], none⟩), none, none⟩

/-- C2: the role-authorization step of the dispatcher (checkRoles,
router.ts lines 81-98).  When roles is defined (even []) and no
AuthContext is attached, it raises the Unauthorized (401) failure; when
an AuthContext is attached and roles is non-empty it raises the
Forbidden (403) failure unless one of the auth context roles is a member
of the route roles, in which case it proceeds; when roles is undefined
it is a no-op.  The concrete dispatcher scenarios: a roles = [] route
with no AuthContext yields a 401 response, and with any AuthContext a
200 response. -/
theorem c2_role_authorization :
    (∀ rs : List String, checkRoles (some rs) none =
        .error (unauthorizedException "Authentication required"))
    ∧ (unauthorizedException "Authentication required").http = some ⟨401, none⟩
    ∧ (∀ (rs : List String) (a : AuthContext), rs ≠ [] →
        ((∃ r, r ∈ a.roles ∧ r ∈ rs) → checkRoles (some rs) (some a) = .ok ())
        ∧ ((¬ ∃ r, r ∈ a.roles ∧ r ∈ rs) →
            checkRoles (some rs) (some a) =
              .error (forbiddenException "Insufficient permissions")))
    ∧ (forbiddenException "Insufficient permissions").http = some ⟨403, none⟩
    ∧ (∀ (a : AuthContext), checkRoles (some []) (some a) = .ok ())
    ∧ (∀ auth, checkRoles none auth = .ok ())
    ∧ handleRequest defaultParse c2Config c2Request =
        ⟨401, Json.obj1 "error" (.str "Authentication required")⟩
    ∧ handleRequest defaultParse c2ConfigAuthed c2Request =
        ⟨200, Json.obj1 "ok" (.bool true)⟩ := by
  refine ⟨fun rs => rfl, rfl, ?_, rfl, fun a => rfl, fun auth => ?_, rfl, rfl⟩
  · intro rs a hne
    have hlen : rs.length > 0 := List.length_pos.mpr hne
    constructor
    · intro ⟨r, hra, hrr⟩
      have hany : rs.any (fun role => a.roles.contains role) = true := by
        rw [List.any_eq_true]
        exact ⟨r, hrr, by simpa using hra⟩
      simp only [checkRoles]
      rw [if_pos hlen, if_pos hany]
    · intro hno
      have hany : ¬ (rs.any (fun role => a.roles.contains role) = true) := by
        rw [List.any_eq_true]
        intro ⟨r, hrr, hc⟩
        exact hno ⟨r, by simpa using hc, hrr⟩
      simp only [checkRoles]
      rw [if_pos hlen, if_neg hany]
  · cases auth <;> rfl

/-- Witness for c2_role_authorization at concrete role lists. -/
theorem c2_role_authorization_witness :
    checkRoles (some ["admin"]) (some ⟨"u1", ["admin"], none⟩) = .ok ()
    ∧ checkRoles (some ["admin"]) (some ⟨"u2", ["user"], none⟩) =
        .error (forbiddenException "Insufficient permissions") := by
  constructor
  · exact (c2_role_authorization.2.2.1 ["admin"] ⟨"u1", ["admin"], none⟩ (by decide)).1
      ⟨"admin", by decide, by decide⟩
  · refine (c2_role_authorization.2.2.1 ["admin"] ⟨"u2", ["user"], none⟩ (by decide)).2 ?_
    rintro ⟨r, hr1, hr2⟩
    simp at hr1
    subst hr1
    simp at hr2

/-! ## C5: middleware chain -/

/-- Middleware that returns its own response without invoking continue. -/
def cacheMw : MiddlewareF := fun _ _ => .ok ⟨299, Json.obj1 "cached" (.bool true)⟩

/-- Route carrying cacheMw whose handler returns a different body. -/
def c5Route : CompiledRoute :=
  ⟨"/data", [], .GET,
   fun _ => .ok (.value (Json.obj1 "fresh" (.bool true))),
   ⟨"/", .GET, "getData", none, some [cacheMw], none, none⟩,
   ⟨"/data", none, none⟩⟩

def c5Config : DispatchConfig := ⟨[c5Route], none, none, none⟩

def c5Request : ModelRequest := ⟨"/data", .GET, "", [], []⟩

/-- C5: the dispatcher executes the concatenation of controller-level
middleware followed by route-level middleware (middlewareChain,
router.ts lines 100-104); each middleware receives the context and a
continue callback running the rest of the chain (runChain, lines
106-118); a middleware that produces its response without invoking its
continue callback makes the final response independent of every later
middleware and of the handler, and when the middleware ahead of it pass
the response through unchanged its response is the final one.  The
concrete scenario: a route whose only middleware short-circuits yields
the middleware response, not the handler response. -/
theorem c5_middleware_short_circuit :
    (∀ r : CompiledRoute, middlewareChain r =
        (r.controllerMetadata.middleware.getD []) ++ (r.metadata.middleware.getD []))
    ∧ (∀ (mws : List MiddlewareF) (mw : MiddlewareF) (ctx : RequestContext)
        (handlerStep : Unit → Except JsError ModelResponse),
        runChain (mw :: mws) ctx handlerStep =
          mw ctx (fun _ => runChain mws ctx handlerStep))
    ∧ (∀ (pre post : List MiddlewareF) (mw : MiddlewareF) (ctx : RequestContext)
        (resp : Except JsError ModelResponse),
        (∀ k, mw ctx k = resp) →
        (∀ (post2 : List MiddlewareF) (h1 h2 : Unit → Except JsError ModelResponse),
          runChain (pre ++ mw :: post) ctx h1 = runChain (pre ++ mw :: post2) ctx h2)
        ∧ ((∀ p ∈ pre, ∀ k, p ctx k = k ()) →
            ∀ h1, runChain (pre ++ mw :: post) ctx h1 = resp))
    ∧ handleRequest defaultParse c5Config c5Request =
        ⟨299, Json.obj1 "cached" (.bool true)⟩ := by
  refine ⟨fun r => rfl, fun mws mw ctx h => rfl, ?_, rfl⟩
  intro pre post mw ctx resp hshort
  constructor
  · intro post2 h1 h2
    induction pre with
    | nil =>
      show mw ctx _ = mw ctx _
      rw [hshort, hshort]
    | cons p pre ih =>
      show p ctx _ = p ctx _
      congr 1
      funext u
      exact ih
  · intro htrans h1
    induction pre with
    | nil => exact hshort _
    | cons p pre ih =>
      show p ctx (fun _ => runChain (pre ++ mw :: post) ctx h1) = resp
      rw [htrans p (by simp)]
      exact ih (fun q hq => htrans q (by simp [hq]))

/-- Passthrough middleware used in the C5 witness. -/
def passMw : MiddlewareF := fun _ k => k ()

/-- Witness for c5_middleware_short_circuit: a passthrough followed by a
short-circuiting middleware; the chain result ignores the handler and
equals the short-circuit response. -/
theorem c5_middleware_short_circuit_witness :
    runChain [passMw, cacheMw] ⟨c5Request, [], none, none⟩
        (fun _ => .ok ⟨200, Json.obj1 "fresh" (.bool true)⟩) =
      .ok ⟨299, Json.obj1 "cached" (.bool true)⟩
    ∧ runChain [passMw, cacheMw] ⟨c5Request, [], none, none⟩
        (fun _ => .ok ⟨500, .null⟩) =
      runChain [passMw, cacheMw, passMw] ⟨c5Request, [], none, none⟩
        (fun _ => .ok ⟨404, .null⟩) := by
  constructor
  · exact (c5_middleware_short_circuit.2.2.1 [passMw] [] cacheMw
      ⟨c5Request, [], none, none⟩ (.ok ⟨299, Json.obj1 "cached" (.bool true)⟩)
      (fun _ => rfl)).2 (by intro p hp k; simp at hp; subst hp; rfl) _
  · exact (c5_middleware_short_circuit.2.2.1 [passMw] [] cacheMw
      ⟨c5Request, [], none, none⟩ (.ok ⟨299, Json.obj1 "cached" (.bool true)⟩)
      (fun _ => rfl)).1 [passMw] _ _

/-! ## C3: the 500 fallback never leaks -/

/-- Fixed fallback response of the default exception filter. -/
def filterFallback : ModelResponse :=
  ⟨500, Json.obj1 "error" (.str "Internal Server Error")⟩

theorem fallback_eval (e : JsError)
    (h1 : e.http = none)
    (h2 : ¬(e.name = "ZodError" ∧ e.issues.isSome))
    (h3 : leadsWith "Invalid request body".data e.message.data = false) :
    defaultExceptionFilterCatch e = filterFallback := by
  unfold defaultExceptionFilterCatch
  rw [h1]
  rw [if_neg h2, if_neg (by simp [h3])]
  rfl

/-- C3: for every error reaching the default filter that is not an
HttpException, not duck-typed as a ZodError and not recognized as a
body-parse failure, the response is the fixed 500 Internal Server Error
body: any two such errors produce identical responses (the response does
not depend on the error message or any other error field), the rendered
body is the constant JSON text, and in particular the message "boom" of
the spec scenario occurs nowhere in it. -/
theorem c3_fallback_never_leaks :
    ∀ e1 e2 : JsError,
    e1.http = none → ¬(e1.name = "ZodError" ∧ e1.issues.isSome) →
    leadsWith "Invalid request body".data e1.message.data = false →
    e2.http = none → ¬(e2.name = "ZodError" ∧ e2.issues.isSome) →
    leadsWith "Invalid request body".data e2.message.data = false →
    defaultExceptionFilterCatch e1 = defaultExceptionFilterCatch e2
    ∧ (defaultExceptionFilterCatch e1).status = 500
    ∧ (defaultExceptionFilterCatch e1).body = Json.obj1 "error" (.str "Internal Server Error")
    ∧ renderJson (defaultExceptionFilterCatch e1).body =
        "\x7b\"error\":\"Internal Server Error\"\x7d"
    ∧ hasChunk (renderJson (defaultExceptionFilterCatch e1).body).data "boom".data = false := by
  intro e1 e2 h11 h12 h13 h21 h22 h23
  rw [fallback_eval e1 h11 h12 h13, fallback_eval e2 h21 h22 h23]
  refine ⟨rfl, rfl, rfl, by decide, by decide⟩

/-- Witness for c3_fallback_never_leaks: the handler-throws-boom scenario
against an unrelated internal error. -/
theorem c3_fallback_never_leaks_witness :
    defaultExceptionFilterCatch ⟨"Error", "boom", none, none⟩ =
      defaultExceptionFilterCatch ⟨"Error", "Database connection failed", none, none⟩
    ∧ (defaultExceptionFilterCatch ⟨"Error", "boom", none, none⟩).status = 500
    ∧ hasChunk
        (renderJson (defaultExceptionFilterCatch ⟨"Error", "boom", none, none⟩).body).data
        "boom".data = false := by
  obtain ⟨ha, hb, -, -, he⟩ :=
    c3_fallback_never_leaks ⟨"Error", "boom", none, none⟩
      ⟨"Error", "Database connection failed", none, none⟩
      rfl (by simp) (by decide) rfl (by simp) (by decide)
  exact ⟨ha, hb, he⟩

/-! ## C8: the 403 role-mismatch body -/

def c8Route : CompiledRoute :=
  ⟨"/admin", [], .GET,
   fun _ => .ok (.value .null),
   ⟨"/", .GET, "adminOnly", none, none, some ["admin"], none⟩,
   ⟨"/admin", none, none⟩⟩

def c8Config : DispatchConfig :=
  ⟨[c8Route], some (fun _ => some ⟨"u1", ["user"], none⟩), none, none⟩

def c8Request : ModelRequest := ⟨"/admin", .GET, "", [], []⟩

/-- Counterexample to C8 as stated: for the route requiring roles
["admin"] and an authenticated user with roles ["user"], the dispatcher
produces the 403 response with body containing only the fixed message
"Insufficient permissions"; the string "admin" (and hence the
required-roles list) appears nowhere in the rendered body. -/
theorem c8_roles_in_body_counterexample :
    handleRequest defaultParse c8Config c8Request =
      ⟨403, Json.obj1 "error" (.str "Insufficient permissions")⟩
    ∧ hasChunk (renderJson (handleRequest defaultParse c8Config c8Request).body).data
        "admin".data = false :=
  ⟨rfl, by decide⟩

/-- C8 amended: a dispatched request failing role authorization raises
ForbiddenException('Insufficient permissions') with no details payload,
and the default filter therefore produces a 403 response whose body is
exactly the error message object, without the route's required-roles
list. -/
theorem c8_role_mismatch_fixed_body (rs : List String) (a : AuthContext)
    (hne : rs ≠ []) (hmiss : ¬ ∃ r, r ∈ a.roles ∧ r ∈ rs) :
    checkRoles (some rs) (some a) = .error (forbiddenException "Insufficient permissions")
    ∧ (forbiddenException "Insufficient permissions").http = some ⟨403, none⟩
    ∧ defaultExceptionFilterCatch (forbiddenException "Insufficient permissions") =
        ⟨403, Json.obj1 "error" (.str "Insufficient permissions")⟩ := by
  refine ⟨?_, rfl, rfl⟩
  have hlen : rs.length > 0 := List.length_pos.mpr hne
  have hany : ¬ (rs.any (fun role => a.roles.contains role) = true) := by
    rw [List.any_eq_true]
    intro ⟨r, hrr, hc⟩
    exact hmiss ⟨r, by simpa using hc, hrr⟩
  simp only [checkRoles]
  rw [if_pos hlen, if_neg hany]

/-- Witness for c8_role_mismatch_fixed_body at roles ["admin"] against
an auth context with roles ["user"]. -/
theorem c8_role_mismatch_fixed_body_witness :
    checkRoles (some ["admin"]) (some ⟨"u9", ["user"], none⟩) =
      .error (forbiddenException "Insufficient permissions") := by
  refine (c8_role_mismatch_fixed_body ["admin"] ⟨"u9", ["user"], none⟩ (by decide) ?_).1
  rintro ⟨r, hr1, hr2⟩
  simp at hr1
  subst hr1
  simp at hr2

/-! ## C4/C10: body parsing and caching -/

theorem applyValidator_state (validator : Option (Json → Except JsError Json))
    (v : Json) (st : BindState) (a : ArgValue) (st' : BindState)
    (h : applyValidator validator v st = .ok (a, st')) : st' = st := by
  cases validator with
  | none => simp [applyValidator] at h; exact h.2.symm
  | some validate =>
    cases hv : validate v with
    | ok v2 => simp [applyValidator, hv] at h; exact h.2.symm
    | error e => simp [applyValidator, hv] at h

theorem bindBody_step (jsonParse : String → Except JsError Json)
    (ctx : RequestContext) (st : BindState)
    (validator : Option (Json → Except JsError Json)) (a : ArgValue) (st' : BindState)
    (h : bindBody jsonParse ctx st validator = .ok (a, st')) :
    (st.parsedBody ≠ none ∧ st' = st)
    ∨ (st.parsedBody = none ∧ st'.bodyReads = st.bodyReads + 1
        ∧ ∃ w, st'.parsedBody = some w) := by
  cases hpb : st.parsedBody with
  | some v =>
    simp only [bindBody, hpb] at h
    exact .inl ⟨by simp [hpb], applyValidator_state validator v st a st' h⟩
  | none =>
    simp only [bindBody, hpb] at h
    cases hp : (if ctx.request.bodyText = "" then .ok (Json.obj .nil)
        else jsonParse ctx.request.bodyText) with
    | ok parsed =>
      rw [hp] at h
      have := applyValidator_state validator parsed ⟨some parsed, st.bodyReads + 1⟩ a st' h
      subst this
      exact .inr ⟨rfl, rfl, parsed, rfl⟩
    | error e => rw [hp] at h; exact absurd h (by simp)

theorem bindQuery_state (ctx : RequestContext) (st : BindState) (key : Option String)
    (a : ArgValue) (st' : BindState) (h : bindQuery ctx st key = .ok (a, st')) :
    st' = st := by
  cases key with
  | none => simp [bindQuery] at h; exact h.2.symm
  | some k =>
    cases hl : lookupFirst ctx.request.query k with
    | some s => simp [bindQuery, hl] at h; exact h.2.symm
    | none => simp [bindQuery, hl] at h; exact h.2.symm

theorem bindRouteParam_state (params : List (String × String)) (st : BindState)
    (key : Option String) (a : ArgValue) (st' : BindState)
    (h : bindRouteParam params st key = .ok (a, st')) : st' = st := by
  cases key with
  | none => simp [bindRouteParam] at h; exact h.2.symm
  | some k =>
    cases hl : lookupFirst params k with
    | some s => simp [bindRouteParam, hl] at h; exact h.2.symm
    | none => simp [bindRouteParam, hl] at h; exact h.2.symm

theorem bindHeaders_state (ctx : RequestContext) (st : BindState) (key : Option String)
    (a : ArgValue) (st' : BindState) (h : bindHeaders ctx st key = .ok (a, st')) :
    st' = st := by
  cases key with
  | none => simp [bindHeaders] at h; exact h.2.symm
  | some k =>
    cases hl : lookupFirst ctx.request.headers k with
    | some s => simp [bindHeaders, hl] at h; exact h.2.symm
    | none => simp [bindHeaders, hl] at h; exact h.2.symm

theorem bindOne_step (jsonParse : String → Except JsError Json)
    (ctx : RequestContext) (params : List (String × String))
    (st : BindState) (d : ParamDecorator) (a : ArgValue) (st' : BindState)
    (h : bindOne jsonParse ctx params st d = .ok (a, st')) :
    st' = st ∨ (d.type = ParamKind.body ∧ st.parsedBody = none
      ∧ st'.bodyReads = st.bodyReads + 1 ∧ ∃ w, st'.parsedBody = some w) := by
  cases hdt : d.type with
  | body =>
    simp only [bindOne, hdt] at h
    rcases bindBody_step jsonParse ctx st d.validator a st' h with ⟨-, hst⟩ | ⟨h1, h2, h3⟩
    · exact .inl hst
    · exact .inr ⟨rfl, h1, h2, h3⟩
  | query =>
    simp only [bindOne, hdt] at h
    exact .inl (bindQuery_state ctx st d.key a st' h)
  | route =>
    simp only [bindOne, hdt] at h
    exact .inl (bindRouteParam_state params st d.key a st' h)
  | request =>
    simp only [bindOne, hdt] at h
    simp at h
    exact .inl h.2.symm
  | headers =>
    simp only [bindOne, hdt] at h
    exact .inl (bindHeaders_state ctx st d.key a st' h)
  | context =>
    simp only [bindOne, hdt] at h
    simp at h
    exact .inl h.2.symm

theorem bindOne_body_none (jsonParse : String → Except JsError Json)
    (ctx : RequestContext) (params : List (String × String))
    (st : BindState) (d : ParamDecorator) (a : ArgValue) (st' : BindState)
    (hdt : d.type = ParamKind.body) (hpb : st.parsedBody = none)
    (h : bindOne jsonParse ctx params st d = .ok (a, st')) :
    st'.bodyReads = st.bodyReads + 1 ∧ ∃ w, st'.parsedBody = some w := by
  simp only [bindOne, hdt] at h
  rcases bindBody_step jsonParse ctx st d.validator a st' h with ⟨hne, -⟩ | ⟨-, h2, h3⟩
  · exact absurd hpb hne
  · exact ⟨h2, h3⟩

theorem bindParams_cached (jsonParse : String → Except JsError Json)
    (ctx : RequestContext) (params : List (String × String)) :
    ∀ (ds : List ParamDecorator) (st : BindState) (v : Json)
      (args : List (Option ArgValue)) (res : List (Option ArgValue) × BindState),
    st.parsedBody = some v →
    bindParams jsonParse ctx params ds st args = .ok res →
    res.2 = st := by
  intro ds
  induction ds with
  | nil =>
    intro st v args res hpb h
    simp [bindParams] at h
    rw [← h]
  | cons d ds ih =>
    intro st v args res hpb h
    simp only [bindParams] at h
    cases hb : bindOne jsonParse ctx params st d with
    | error e => simp only [hb] at h; exact absurd h (by simp)
    | ok pair =>
      obtain ⟨a, st'⟩ := pair
      simp only [hb] at h
      rcases bindOne_step jsonParse ctx params st d a st' hb with hst | ⟨-, hnone, -, -⟩
      · rw [hst] at h
        exact ih st v _ res hpb h
      · rw [hpb] at hnone
        cases hnone

theorem bindParams_fresh (jsonParse : String → Except JsError Json)
    (ctx : RequestContext) (params : List (String × String)) :
    ∀ (ds : List ParamDecorator) (st : BindState)
      (args : List (Option ArgValue)) (res : List (Option ArgValue) × BindState),
    st.parsedBody = none →
    bindParams jsonParse ctx params ds st args = .ok res →
    ((¬ ∃ d ∈ ds, d.type = ParamKind.body) → res.2 = st)
    ∧ ((∃ d ∈ ds, d.type = ParamKind.body) →
        res.2.bodyReads = st.bodyReads + 1 ∧ ∃ w, res.2.parsedBody = some w) := by
  intro ds
  induction ds with
  | nil =>
    intro st args res hpb h
    simp [bindParams] at h
    constructor
    · intro _; rw [← h]
    · intro hex; simp at hex
  | cons d ds ih =>
    intro st args res hpb h
    simp only [bindParams] at h
    cases hb : bindOne jsonParse ctx params st d with
    | error e => simp only [hb] at h; exact absurd h (by simp)
    | ok pair =>
      obtain ⟨a, st'⟩ := pair
      simp only [hb] at h
      by_cases hdt : d.type = ParamKind.body
      · obtain ⟨hreads, w, hw⟩ :=
          bindOne_body_none jsonParse ctx params st d a st' hdt hpb hb
        have hres := bindParams_cached jsonParse ctx params ds st' w _ res hw h
        constructor
        · intro hno
          exact absurd ⟨d, by simp, hdt⟩ hno
        · intro _
          rw [hres]
          exact ⟨hreads, w, hw⟩
      · rcases bindOne_step jsonParse ctx params st d a st' hb with hst | ⟨hbody, -, -, -⟩
        · rw [hst] at h
          obtain ⟨ih1, ih2⟩ := ih st _ res hpb h
          constructor
          · intro hno
            refine ih1 ?_
            intro ⟨d2, hd2, hd2t⟩
            exact hno ⟨d2, by simp [hd2], hd2t⟩
          · intro ⟨d2, hd2, hd2t⟩
            rcases List.mem_cons.mp hd2 with hd2 | hd2
            · subst hd2; exact absurd hd2t hdt
            · exact ih2 ⟨d2, hd2, hd2t⟩
        · exact absurd hbody hdt

/-- C4: within one request the body is parsed at most once.  (i) A body
binding finding the cache populated returns the cached value with no
further read; (ii) the first body binding reads the body once, parses it
and stores it in the cache; (iii) across the whole parameter-binding
loop of executeHandler, starting from the fresh per-request state, the
underlying request body is read at most once, and exactly once precisely
when some binding of kind body occurs in the decorator list. -/
theorem c4_body_parsed_once (jsonParse : String → Except JsError Json)
    (ctx : RequestContext) (params : List (String × String)) :
    (∀ (st : BindState) (v : Json) (i : Nat) (k : Option String),
      st.parsedBody = some v →
      bindOne jsonParse ctx params st ⟨i, .body, k, none⟩ = .ok (ArgValue.json v, st))
    ∧ (∀ (st : BindState) (i : Nat) (k : Option String) (v : Json),
      st.parsedBody = none → ctx.request.bodyText ≠ "" →
      jsonParse ctx.request.bodyText = .ok v →
      bindOne jsonParse ctx params st ⟨i, .body, k, none⟩ =
        .ok (ArgValue.json v, ⟨some v, st.bodyReads + 1⟩))
    ∧ (∀ (ds : List ParamDecorator) (args : List (Option ArgValue))
        (res : List (Option ArgValue) × BindState),
      bindParams jsonParse ctx params ds ⟨none, 0⟩ args = .ok res →
      res.2.bodyReads ≤ 1
      ∧ (res.2.bodyReads = 1 ↔ ∃ d ∈ ds, d.type = ParamKind.body)) := by
  refine ⟨?_, ?_, ?_⟩
  · intro st v i k hpb
    simp [bindOne, bindBody, hpb, applyValidator]
  · intro st i k v hpb htext hparse
    simp [bindOne, bindBody, hpb, if_neg htext, hparse, applyValidator]
  · intro ds args res h
    obtain ⟨h1, h2⟩ := bindParams_fresh jsonParse ctx params ds ⟨none, 0⟩ args res rfl h
    by_cases hex : ∃ d ∈ ds, d.type = ParamKind.body
    · obtain ⟨hreads, -⟩ := h2 hex
      simp at hreads
      constructor
      · omega
      · exact ⟨fun _ => hex, fun _ => hreads⟩
    · have hst := h1 hex
      rw [hst]
      constructor
      · decide
      · constructor
        · intro hcon; exact absurd hcon (by decide)
        · intro hcon; exact absurd hcon hex

/-- Fresh request context with body text used by the C4 witness. -/
def c4Ctx : RequestContext := ⟨⟨"/u", .POST, "7", [], []⟩, [], none, none⟩

def c4Decorators : List ParamDecorator :=
  [⟨0, .body, none, none⟩, ⟨1, .body, none, none⟩]

/-- Result of running the binding loop on two body bindings. -/
def c4Run : List (Option ArgValue) × BindState :=
  match bindParams (fun _ => .ok (Json.num 7)) c4Ctx [] c4Decorators ⟨none, 0⟩ [] with
  | .ok r => r
  | .error _ => ([], ⟨none, 99⟩)

/-- Witness for c4_body_parsed_once: two body bindings on one handler
read the body exactly once. -/
theorem c4_body_parsed_once_witness :
    c4Run.2.bodyReads ≤ 1
    ∧ (c4Run.2.bodyReads = 1 ↔ ∃ d ∈ c4Decorators, d.type = ParamKind.body) :=
  (c4_body_parsed_once (fun _ => .ok (Json.num 7)) c4Ctx []).2.2 c4Decorators [] c4Run rfl

/-- C10: a request with empty body text and a body binding without
validator yields the empty object, not a parse failure: the binding
produces the empty JSON object and caches it without invoking JSON.parse
(the text-is-falsy branch of router.ts line 169), and executeHandler
proceeds to invoke the handler normally with that argument. -/
theorem c10_empty_body_empty_object (jsonParse : String → Except JsError Json)
    (route : CompiledRoute) (ctx : RequestContext)
    (params : List (String × String)) (i : Nat) (k : Option String)
    (hempty : ctx.request.bodyText = "") (hfresh : ctx.parsedBody = none)
    (hdec : route.metadata.paramDecorators = some [⟨i, .body, k, none⟩]) :
    bindOne jsonParse ctx params ⟨none, 0⟩ ⟨i, .body, k, none⟩ =
        .ok (ArgValue.json (Json.obj .nil), ⟨some (Json.obj .nil), 1⟩)
    ∧ executeHandler jsonParse route ctx params =
        (match route.handler (setArg [] i (ArgValue.json (Json.obj .nil))) with
         | .error e => .error e
         | .ok (.response r) => .ok r
         | .ok (.value v) => .ok ⟨200, v⟩) := by
  have hbind : bindOne jsonParse ctx params ⟨none, 0⟩ ⟨i, .body, k, none⟩ =
      .ok (ArgValue.json (Json.obj .nil), ⟨some (Json.obj .nil), 1⟩) := by
    simp [bindOne, bindBody, hempty, applyValidator]
  refine ⟨hbind, ?_⟩
  unfold executeHandler
  rw [hdec, hfresh]
  simp only [Option.getD, sortedDecorators, List.insertionSort, bindParams, hbind]

/-- Handler of the C10 witness route: echoes its first argument when it
is a JSON value. -/
def c10Handler : HandlerFn := fun args =>
  match args.getD 0 none with
  | some (ArgValue.json j) => .ok (.value j)
  | _ => .ok (.value .null)

/-- Route used by the C10 witness: one body binding. -/
def c10Route : CompiledRoute :=
  ⟨"/u", [], .POST, c10Handler,
   ⟨"/", .POST, "create", none, none, none, some [⟨0, .body, none, none⟩]⟩,
   ⟨"/u", none, none⟩⟩

def c10Ctx : RequestContext := ⟨⟨"/u", .POST, "", [], []⟩, [], none, none⟩

/-- Witness for c10_empty_body_empty_object: the empty-body request binds
the empty object and the handler runs, echoing it as a 200 response. -/
theorem c10_empty_body_empty_object_witness :
    bindOne defaultParse c10Ctx [] ⟨none, 0⟩ ⟨0, .body, none, none⟩ =
      .ok (ArgValue.json (Json.obj .nil), ⟨some (Json.obj .nil), 1⟩)
    ∧ executeHandler defaultParse c10Route c10Ctx [] = .ok ⟨200, Json.obj .nil⟩ := by
  obtain ⟨h1, h2⟩ := c10_empty_body_empty_object defaultParse c10Route c10Ctx [] 0 none
    rfl rfl rfl
  refine ⟨h1, ?_⟩
  rw [h2]
  rfl

/-! ## C6: decorator ordering -/

/-- C6: evaluation of the decorator layer at the inputs where
order-independence fails on the code.  (i) Authorize applied before any
verb decorator throws (auth.ts lines 36-41) instead of lazily
materializing the metadata record; (ii) the verb decorator overwrites
the whole record with a fresh one holding only path, verb and handler
name (http-methods.ts setRouteMetadata call), so middleware appended by
an earlier-run Use decorator is discarded: Use-then-Get keeps no
middleware while Get-then-Use keeps one, producing different final
RouteMetadata for the same annotation set. -/
theorem c6_decorator_order_dependence :
    applyAuthorize ["admin"] none =
      .error "Route metadata not found. Make sure to use an HTTP method decorator before @Authorize."
    ∧ ((applyMethodDecorator .GET "/x" "h" (applyUse [passMw] "h" none)).map
        (fun m => (m.middleware.getD []).length)) = some 0
    ∧ ((applyUse [passMw] "h" (applyMethodDecorator .GET "/x" "h" none)).map
        (fun m => (m.middleware.getD []).length)) = some 1 :=
  ⟨rfl, rfl, rfl⟩

/-! ## C7: malformed JSON body -/

/-- Host JSON.parse behavior on malformed input: a SyntaxError whose
message does not start with the text the filter looks for. -/
def syntaxParse : String → Except JsError Json :=
  fun _ => .error ⟨"SyntaxError", "Unexpected token o in JSON at position 1", none, none⟩

def c7Route : CompiledRoute :=
  ⟨"/u", [], .POST, nullHandler,
   ⟨"/", .POST, "create", none, none, none, some [⟨0, .body, none, none⟩]⟩,
   ⟨"/u", none, none⟩⟩

def c7Config : DispatchConfig := ⟨[c7Route], none, none, none⟩

def c7Request : ModelRequest := ⟨"/u", .POST, "\x7boops", [], []⟩

/-- C7: behavior of the code at the failing input.  The router never
wraps a JSON.parse failure in an error whose message starts with
'Invalid request body': executeHandler propagates the parse error
unchanged, and since a SyntaxError message does not match the filter's
body-parse branch, the default filter maps the malformed-body request to
the 500 fallback, not to the 400 generic response the claim (and the
repository's own SETUP.md) describe. -/
theorem c7_parse_error_bypasses_400 :
    (∀ (jsonParse : String → Except JsError Json) (route : CompiledRoute)
      (ctx : RequestContext) (params : List (String × String))
      (i : Nat) (k : Option String) (e : JsError),
      ctx.request.bodyText ≠ "" → ctx.parsedBody = none →
      jsonParse ctx.request.bodyText = .error e →
      route.metadata.paramDecorators = some [⟨i, .body, k, none⟩] →
      executeHandler jsonParse route ctx params = .error e)
    ∧ (∀ e : JsError, e.http = none → ¬(e.name = "ZodError" ∧ e.issues.isSome) →
        leadsWith "Invalid request body".data e.message.data = false →
        defaultExceptionFilterCatch e = filterFallback)
    ∧ handleRequest syntaxParse c7Config c7Request =
        ⟨500, Json.obj1 "error" (.str "Internal Server Error")⟩
    ∧ (handleRequest syntaxParse c7Config c7Request).status ≠ 400 := by
  refine ⟨?_, fallback_eval, rfl, by decide⟩
  intro jsonParse route ctx params i k e htext hfresh hparse hdec
  unfold executeHandler
  rw [hdec, hfresh]
  simp only [Option.getD, sortedDecorators, List.insertionSort, bindParams, bindOne,
    bindBody, if_neg htext, hparse]

/-- Witness for c7_parse_error_bypasses_400 at the concrete malformed
request. -/
theorem c7_parse_error_bypasses_400_witness :
    executeHandler syntaxParse c7Route
        ⟨c7Request, [], none, none⟩ [] =
      .error ⟨"SyntaxError", "Unexpected token o in JSON at position 1", none, none⟩
    ∧ defaultExceptionFilterCatch
        ⟨"SyntaxError", "Unexpected token o in JSON at position 1", none, none⟩ =
      filterFallback := by
  constructor
  · exact c7_parse_error_bypasses_400.1 syntaxParse c7Route ⟨c7Request, [], none, none⟩
      [] 0 none ⟨"SyntaxError", "Unexpected token o in JSON at position 1", none, none⟩
      (by decide) rfl rfl rfl
  · exact c7_parse_error_bypasses_400.2.1
      ⟨"SyntaxError", "Unexpected token o in JSON at position 1", none, none⟩
      rfl (by simp) (by decide)
